import Mathlib

set_option maxRecDepth 40000
set_option maxHeartbeats 1000000

/-!
Verification of the bencode / torrent-metadata / tracker / handshake core of
the `rs-torrent-client` repository, shallowly embedded in Lean.

Bytes are modelled as `Nat` (values < 256 in all reachable states), byte
strings as `List Nat`, Rust `i64` as `Int` with explicit range checks where
the source performs checked parsing, and Rust `usize` as `Nat` with the
64-bit bound where the source parses it.  Fallible Rust functions returning
`Result` become `Except`-valued Lean functions.  Recursive functions over
the nested `BencodeValue` tree take an explicit fuel argument (any fuel
at least `sizeOf` of the value yields the value's result; wrapper
definitions instantiate the fuel), keeping every definition executable by
kernel reduction.
-/

/-! ## Byte-level utilities -/

/-- Byte-lexicographic comparison of byte strings, mirroring Rust's derived
`Ord` on `Vec<u8>` (elementwise, a strict prefix is smaller). -/
def bytesLe : List Nat → List Nat → Bool
  | [], _ => true
  | _ :: _, [] => false
  | a :: as, b :: bs => if a < b then true else if b < a then false else bytesLe as bs

/-- The ordering relation used to sort dictionary keys. -/
def keyLe (a b : List Nat) : Prop := bytesLe a b = true

instance : DecidableRel keyLe := fun a b => by unfold keyLe; infer_instance

theorem bytesLe_total : ∀ a b, bytesLe a b = true ∨ bytesLe b a = true := by
  intro a
  induction a with
  | nil => intro b; left; rfl
  | cons x xs ih =>
    intro b
    cases b with
    | nil => right; rfl
    | cons y ys =>
      by_cases hxy : x < y
      · left; simp [bytesLe, hxy]
      · by_cases hyx : y < x
        · right; simp [bytesLe, hyx, hxy]
        · have hxe : x = y := Nat.le_antisymm (Nat.not_lt.mp hyx) (Nat.not_lt.mp hxy)
          subst hxe
          rcases ih ys with h | h
          · left; simp [bytesLe, h]
          · right; simp [bytesLe, h]

theorem bytesLe_antisymm : ∀ a b, bytesLe a b = true → bytesLe b a = true → a = b := by
  intro a
  induction a with
  | nil =>
    intro b _ hba
    cases b with
    | nil => rfl
    | cons y ys => simp [bytesLe] at hba
  | cons x xs ih =>
    intro b hab hba
    cases b with
    | nil => simp [bytesLe] at hab
    | cons y ys =>
      rcases Nat.lt_trichotomy x y with h | h | h
      · exfalso
        simp [bytesLe, Nat.lt_asymm h, h] at hba
      · subst h
        simp [bytesLe, Nat.lt_irrefl] at hab hba
        rw [ih ys hab hba]
      · exfalso
        simp [bytesLe, Nat.lt_asymm h, h] at hab

theorem bytesLe_trans : ∀ a b c, bytesLe a b = true → bytesLe b c = true →
    bytesLe a c = true := by
  intro a
  induction a with
  | nil => intro b c _ _; rfl
  | cons x xs ih =>
    intro b c hab hbc
    cases b with
    | nil => simp [bytesLe] at hab
    | cons y ys =>
      cases c with
      | nil => simp [bytesLe] at hbc
      | cons z zs =>
        rcases Nat.lt_trichotomy x y with hxy | hxy | hxy
        · rcases Nat.lt_trichotomy y z with hyz | hyz | hyz
          · simp [bytesLe, Nat.lt_trans hxy hyz]
          · subst hyz; simp [bytesLe, hxy]
          · exfalso; simp [bytesLe, Nat.lt_asymm hyz, hyz] at hbc
        · subst hxy
          simp [bytesLe, Nat.lt_irrefl] at hab
          rcases Nat.lt_trichotomy x z with hyz | hyz | hyz
          · simp [bytesLe, hyz]
          · subst hyz
            simp [bytesLe, Nat.lt_irrefl] at hbc ⊢
            exact ih _ _ hab hbc
          · exfalso; simp [bytesLe, Nat.lt_asymm hyz, hyz] at hbc
        · exfalso; simp [bytesLe, Nat.lt_asymm hxy, hxy] at hab

instance : IsTotal (List Nat) keyLe := ⟨fun a b => bytesLe_total a b⟩

instance : IsTrans (List Nat) keyLe := ⟨fun a b c => bytesLe_trans a b c⟩

instance : IsAntisymm (List Nat) keyLe := ⟨fun a b => bytesLe_antisymm a b⟩

/-- Decimal digits (as ASCII byte values) of a natural number, most
significant first; fuel-driven so that it reduces in the kernel.  Mirrors
the output of Rust's `Display` for unsigned integers. -/
def natDigitsF : Nat → Nat → List Nat
  | 0, _ => []
  | f + 1, n => if n < 10 then [48 + n] else natDigitsF f (n / 10) ++ [48 + n % 10]

def natDigits (n : Nat) : List Nat := natDigitsF (n + 1) n

/-- Value of a list of ASCII decimal digit bytes, most significant first
(callers check digit-ness separately). -/
def digitsVal (bs : List Nat) : Nat := bs.foldl (fun acc b => acc * 10 + (b - 48)) 0

/-- Is the byte an ASCII decimal digit? -/
def isDigitByte (b : Nat) : Bool := decide (48 ≤ b) && decide (b ≤ 57)

/-- Model of Rust's `str::parse::<usize>()` on the raw bytes of the string:
an optional leading `+`, then at least one decimal digit, nothing else;
values that overflow 64-bit `usize` fail.  (`-` is rejected for the
unsigned type.) -/
def parseUsize (bs : List Nat) : Option Nat :=
  let body := if bs.head? = some 43 then bs.tail else bs
  if body = [] then none
  else if body.all isDigitByte then
    let v := digitsVal body
    if v < 2 ^ 64 then some v else none
  else none

/-- Model of Rust's `str::parse::<i64>()` on the raw bytes of the string:
an optional leading `+` or `-`, then at least one decimal digit, nothing
else; values outside the signed 64-bit range fail. -/
def parseI64 (bs : List Nat) : Option Int :=
  let neg := bs.head? = some 45
  let body := if bs.head? = some 43 || bs.head? = some 45 then bs.tail else bs
  if body = [] then none
  else if body.all isDigitByte then
    let v : Int := Int.ofNat (digitsVal body)
    let v := if neg then -v else v
    if -(2 ^ 63) ≤ v ∧ v < 2 ^ 63 then some v else none
  else none

/-- Is the byte a UTF-8 continuation byte (`10xxxxxx`)? -/
def isCont (b : Nat) : Bool := decide (128 ≤ b) && decide (b ≤ 191)

/-- Lower bound of the second byte of a multi-byte UTF-8 sequence, per
leading byte (RFC 3629's table, as enforced by Rust's `String::from_utf8`:
no overlong forms, no surrogates, max U+10FFFF). -/
def utf8SecondLo (b : Nat) : Nat := if b = 224 then 160 else if b = 240 then 144 else 128

/-- Upper bound of the second byte of a multi-byte UTF-8 sequence. -/
def utf8SecondHi (b : Nat) : Nat := if b = 237 then 159 else if b = 244 then 143 else 191

/-- UTF-8 scanner: `pending` continuation bytes still expected, the allowed
range `[lo, hi]` for the next expected byte (the second byte of a sequence
is range-restricted per its leading byte, later ones are plain
continuations `128..191`). -/
def utf8Scan : Nat → Nat → Nat → List Nat → Bool
  | 0, _, _, [] => true
  | _ + 1, _, _, [] => false
  | 0, _, _, b :: rest =>
    if b ≤ 127 then utf8Scan 0 128 191 rest
    else if 194 ≤ b && b ≤ 223 then utf8Scan 1 128 191 rest
    else if 224 ≤ b && b ≤ 239 then utf8Scan 2 (utf8SecondLo b) (utf8SecondHi b) rest
    else if 240 ≤ b && b ≤ 244 then utf8Scan 3 (utf8SecondLo b) (utf8SecondHi b) rest
    else false
  | n + 1, lo, hi, c :: rest =>
    decide (lo ≤ c) && decide (c ≤ hi) && utf8Scan n 128 191 rest

/-- Standard UTF-8 validity of a byte sequence, as enforced by Rust's
`String::from_utf8`. -/
def isValidUtf8 (bs : List Nat) : Bool := utf8Scan 0 128 191 bs

deriving instance DecidableEq for Except

/-! ## Bencode value model (`src/bencode/mod.rs`) -/

/-- `BencodeValue`: byte string, signed 64-bit integer, list, or dictionary.
The Rust `Dict` holds a `HashMap<Vec<u8>, BencodeValue>`; here a dictionary
is an association list in insertion order (a `HashMap` is this list up to
permutation and has no duplicate keys). -/
inductive BencodeValue where
  | str (s : List Nat)
  | int (i : Int)
  | list (l : List BencodeValue)
  | dict (d : List (List Nat × BencodeValue))

/-- `BencodeError` (payload strings abbreviated; the source interpolates
details into `InvalidFormat`). -/
inductive BencodeError where
  | ioError
  | invalidFormat (msg : String)
  | invalidInteger
  | invalidStringLength
  | unexpectedEOI
  | cannotEncodeType
  | dictKeyNotString
deriving DecidableEq

/-! ## Bencode decoder (`src/bencode/decoder.rs`) -/

/-- `read_until`: bytes read from the stream up to (and consuming) the
delimiter, which must be valid UTF-8 (the source converts the buffer with
`String::from_utf8`); running out of input is `UnexpectedEOI`.  Returns the
collected bytes and the rest of the stream. -/
def read_until (delimiter : Nat) : List Nat → Except BencodeError (List Nat × List Nat)
  | [] => .error .unexpectedEOI
  | b :: rest =>
    if b = delimiter then .ok ([], rest)
    else
      match read_until delimiter rest with
      | .ok (buf, rest1) => .ok (b :: buf, rest1)
      | .error e => .error e

/-- The UTF-8 check `read_until` performs when building its `String`. -/
def read_until_str (delimiter : Nat) (input : List Nat) :
    Except BencodeError (List Nat × List Nat) :=
  match read_until delimiter input with
  | .ok (buf, rest) =>
    if isValidUtf8 buf then .ok (buf, rest)
    else .error (.invalidFormat ("Non-UTF8 characters in length/integer"))
  | .error e => .error e

/-- Read exactly `n` bytes from the stream (`UnexpectedEOI` if it ends). -/
def readN : Nat → List Nat → Except BencodeError (List Nat × List Nat)
  | 0, rest => .ok ([], rest)
  | _ + 1, [] => .error .unexpectedEOI
  | n + 1, b :: rest =>
    match readN n rest with
    | .ok (buf, rest1) => .ok (b :: buf, rest1)
    | .error e => .error e

/-- `decode_string`: `<length>:<data>`; a length prefix that does not parse
as `usize` is `InvalidStringLength`. -/
def decode_string (input : List Nat) : Except BencodeError (List Nat × List Nat) :=
  match read_until_str 58 input with
  | .error e => .error e
  | .ok (length_str, rest) =>
    match parseUsize length_str with
    | none => .error .invalidStringLength
    | some length => readN length rest

/-- `decode_integer`: `i<number>e` with the source's validation order:
leading-zero check, `-0` check, empty check, then `i64` parsing. -/
def decode_integer (input : List Nat) : Except BencodeError (Int × List Nat) :=
  match input with
  | [] => .error .unexpectedEOI
  | first_byte :: rest =>
    if first_byte ≠ 105 then .error (.invalidFormat ("Integer must start with i"))
    else
      match read_until_str 101 rest with
      | .error e => .error e
      | .ok (num_str, rest1) =>
        if num_str.length > 1 ∧ num_str.head? = some 48 then .error .invalidInteger
        else if num_str = [45, 48] then .error .invalidInteger
        else if num_str = [] then .error .invalidInteger
        else
          match parseI64 num_str with
          | some v => .ok (v, rest1)
          | none => .error .invalidInteger

/-- `HashMap::insert` on the association-list representation: replaces the
value of an existing key in place, otherwise appends (last write wins). -/
def insertAssoc (k : List Nat) (v : BencodeValue) :
    List (List Nat × BencodeValue) → List (List Nat × BencodeValue)
  | [] => [(k, v)]
  | (k1, v1) :: t => if k1 = k then (k, v) :: t else (k1, v1) :: insertAssoc k v t

mutual

/-- `decode_next`: dispatch on the peeked byte (digit ⇒ string, `i` ⇒
integer, `l` ⇒ list, `d` ⇒ dict, else `InvalidFormat`).  The `fuel`
argument only bounds recursion depth; `none` means fuel ran out and never
occurs for fuel larger than the input length. -/
def decode_next (fuel : Nat) (input : List Nat) :
    Option (Except BencodeError (BencodeValue × List Nat)) :=
  match fuel with
  | 0 => none
  | f + 1 =>
    match input with
    | [] => some (.error .unexpectedEOI)
    | b :: rest =>
      if isDigitByte b then
        some ((decode_string input).map (fun p => (.str p.1, p.2)))
      else if b = 105 then
        some ((decode_integer input).map (fun p => (.int p.1, p.2)))
      else if b = 108 then
        match decode_list_items f rest with
        | none => none
        | some (.error e) => some (.error e)
        | some (.ok (l, rest1)) => some (.ok (.list l, rest1))
      else if b = 100 then
        match decode_dict_pairs f [] rest with
        | none => none
        | some (.error e) => some (.error e)
        | some (.ok (d, rest1)) => some (.ok (.dict d, rest1))
      else some (.error (.invalidFormat ("Unexpected character")))

/-- The item loop of `decode_list` (the `l` byte is already consumed):
repeatedly decode values until the next byte is `e`. -/
def decode_list_items (fuel : Nat) (input : List Nat) :
    Option (Except BencodeError (List BencodeValue × List Nat)) :=
  match fuel with
  | 0 => none
  | f + 1 =>
    match input with
    | [] => some (.error .unexpectedEOI)
    | b :: rest =>
      if b = 101 then some (.ok ([], rest))
      else
        match decode_next f input with
        | none => none
        | some (.error e) => some (.error e)
        | some (.ok (item, rest1)) =>
          match decode_list_items f rest1 with
          | none => none
          | some (.error e) => some (.error e)
          | some (.ok (items, rest2)) => some (.ok (item :: items, rest2))

/-- The pair loop of `decode_dict` (the `d` byte is already consumed):
repeatedly decode a string key and a value, inserting into the accumulated
map (last write wins), until the next byte is `e`. -/
def decode_dict_pairs (fuel : Nat) (acc : List (List Nat × BencodeValue))
    (input : List Nat) :
    Option (Except BencodeError (List (List Nat × BencodeValue) × List Nat)) :=
  match fuel with
  | 0 => none
  | f + 1 =>
    match input with
    | [] => some (.error .unexpectedEOI)
    | b :: rest =>
      if b = 101 then some (.ok (acc, rest))
      else
        match decode_string input with
        | .error e => some (.error e)
        | .ok (key, rest1) =>
          match decode_next f rest1 with
          | none => none
          | some (.error e) => some (.error e)
          | some (.ok (value, rest2)) =>
            decode_dict_pairs f (insertAssoc key value acc) rest2

end

/-- Top-level decoding of a byte buffer: `decode_next` with fuel that is
always sufficient (every recursion step first consumes at least one byte). -/
def decodeBytes (input : List Nat) : Option (Except BencodeError (BencodeValue × List Nat)) :=
  decode_next (input.length + 1) input

/-! ## Bencode encoder (`src/bencode/encoder/mod.rs`) -/

mutual

/-- Size of a `BencodeValue` tree, used as sufficient fuel for the
fuel-driven recursions below. -/
def bsize : BencodeValue → Nat
  | .str _ => 1
  | .int _ => 1
  | .list l => 1 + bsizeL l
  | .dict d => 1 + bsizeP d

/-- Total size of a list of values. -/
def bsizeL : List BencodeValue → Nat
  | [] => 0
  | v :: t => bsize v + bsizeL t + 1

/-- Total size of an association list of values. -/
def bsizeP : List (List Nat × BencodeValue) → Nat
  | [] => 0
  | (_, v) :: t => bsize v + bsizeP t + 1

end

/-- `HashMap::get` on the association-list representation. -/
def lookupA (k : List Nat) : List (List Nat × BencodeValue) → Option BencodeValue
  | [] => none
  | (k1, v1) :: t => if k1 = k then some v1 else lookupA k t

/-- `keys.sort_unstable()` for `Vec<&Vec<u8>>`: sorting by the byte-
lexicographic order (the algorithm differs, the sorted result is the same
list because the order is total and equal keys are identical). -/
def sortKeys (ks : List (List Nat)) : List (List Nat) := ks.insertionSort keyLe

/-- `encode_string`: `<decimal length>:<raw bytes>`. -/
def encode_string (s : List Nat) : List Nat := natDigits s.length ++ [58] ++ s

/-- Decimal digits of an `i64`, with a leading `-` for negatives (Rust's
`Display` for signed integers, as used by `write!("i{}e", i)`). -/
def intDigits (i : Int) : List Nat :=
  if i < 0 then 45 :: natDigits (-i).toNat else natDigits i.toNat

/-- `encode_integer`: `i<decimal>e`. -/
def encode_integer (i : Int) : List Nat := 105 :: intDigits i ++ [101]

/-- `encode_value`, fuel-driven: lists encode members in order; dictionaries
collect their keys, sort them byte-lexicographically and emit each key (as a
string) followed by its value.  The `none` branch of the lookup mirrors the
source's `ok_or(InvalidFormat)` on `dict.get`, which is unreachable because
every emitted key comes from the same map. -/
def encodeF : Nat → BencodeValue → List Nat
  | 0, _ => []
  | f + 1, v =>
    match v with
    | .str s => encode_string s
    | .int i => encode_integer i
    | .list l => 108 :: (l.map (encodeF f)).flatten ++ [101]
    | .dict d =>
      100 :: ((sortKeys (d.map Prod.fst)).map (fun k =>
        encode_string k ++
          match lookupA k d with
          | some v1 => encodeF f v1
          | none => [])).flatten ++ [101]

/-- `encode`: the public encoder (fuel `bsize v` always suffices). -/
def encode (v : BencodeValue) : List Nat := encodeF (bsize v) v

/-! ## SHA-1 (the `sha1` crate dependency)

Modelled from the spec: the source (`src/torrent/info_hash.rs`) feeds the
canonical encoding of the info dictionary to the external `sha1` crate; the
spec describes the result as "the 20-byte SHA-1 digest of the canonically-
encoded `info` dictionary".  This is the standard SHA-1 (FIPS 180) over a
byte sequence, on 32-bit words represented as `Nat` reduced `% 2^32`. -/

/-- `2^32`, the word modulus of SHA-1 arithmetic. -/
def w32 : Nat := 4294967296

/-- Rotate a 32-bit word left by `k`. -/
def rotl (k x : Nat) : Nat := ((x <<< k) % w32) ||| (x >>> (32 - k))

/-- Big-endian 8-byte encoding of a 64-bit length. -/
def beBytes8 (n : Nat) : List Nat :=
  [n >>> 56 % 256, n >>> 48 % 256, n >>> 40 % 256, n >>> 32 % 256,
   n >>> 24 % 256, n >>> 16 % 256, n >>> 8 % 256, n % 256]

/-- Big-endian 4-byte encoding of a 32-bit word. -/
def beBytes4 (n : Nat) : List Nat := [n >>> 24 % 256, n >>> 16 % 256, n >>> 8 % 256, n % 256]

/-- SHA-1 padding: a `0x80` byte, zeros to 56 mod 64, then the bit length. -/
def sha1Pad (msg : List Nat) : List Nat :=
  msg ++ [128] ++ List.replicate ((119 - msg.length % 64) % 64) 0 ++ beBytes8 (8 * msg.length)

/-- Big-endian 32-bit words of a byte sequence. -/
def wordsOf : List Nat → List Nat
  | b0 :: b1 :: b2 :: b3 :: rest => (((b0 * 256 + b1) * 256 + b2) * 256 + b3) :: wordsOf rest
  | _ => []

/-- Message-schedule extension: append `t` further words, each
`rotl1 (w[i-3] xor w[i-8] xor w[i-14] xor w[i-16])`. -/
def extendW (ws : List Nat) : Nat → List Nat
  | 0 => ws
  | t + 1 =>
    let prev := extendW ws t
    let n := prev.length
    prev ++ [rotl 1 (Nat.xor (Nat.xor (prev.getD (n - 3) 0) (prev.getD (n - 8) 0))
      (Nat.xor (prev.getD (n - 14) 0) (prev.getD (n - 16) 0)))]

/-- The SHA-1 round function for round `t`. -/
def sha1F (t b c d : Nat) : Nat :=
  if t < 20 then Nat.lor (Nat.land b c) (Nat.land (Nat.xor b 4294967295) d)
  else if t < 40 then Nat.xor (Nat.xor b c) d
  else if t < 60 then Nat.lor (Nat.lor (Nat.land b c) (Nat.land b d)) (Nat.land c d)
  else Nat.xor (Nat.xor b c) d

/-- The SHA-1 round constant for round `t`. -/
def sha1K (t : Nat) : Nat :=
  if t < 20 then 1518500249
  else if t < 40 then 1859775393
  else if t < 60 then 2400959708
  else 3395469782

/-- One SHA-1 round over the five-word state. -/
def sha1Round (ws : List Nat) (st : Nat × Nat × Nat × Nat × Nat) (t : Nat) :
    Nat × Nat × Nat × Nat × Nat :=
  let (a, b, c, d, e) := st
  let tmp := (rotl 5 a + sha1F t b c d + e + sha1K t + ws.getD t 0) % w32
  (tmp, a, rotl 30 b, c, d)

/-- Process one 64-byte chunk. -/
def sha1Chunk (h : Nat × Nat × Nat × Nat × Nat) (chunk : List Nat) :
    Nat × Nat × Nat × Nat × Nat :=
  let ws := extendW (wordsOf chunk) 64
  let (h0, h1, h2, h3, h4) := h
  let (a, b, c, d, e) := (List.range 80).foldl (sha1Round ws) (h0, h1, h2, h3, h4)
  ((h0 + a) % w32, (h1 + b) % w32, (h2 + c) % w32, (h3 + d) % w32, (h4 + e) % w32)

/-- Split into 64-byte chunks (fuel-driven; the padded length is sufficient). -/
def chunks64F : Nat → List Nat → List (List Nat)
  | 0, _ => []
  | _ + 1, [] => []
  | f + 1, l => (l.take 64) :: chunks64F f (l.drop 64)

/-- SHA-1 of a byte sequence: the 20-byte digest. -/
def sha1 (msg : List Nat) : List Nat :=
  let padded := sha1Pad msg
  let st := (chunks64F padded.length padded).foldl sha1Chunk
    (1732584193, 4023233417, 2562383102, 271733878, 3285377520)
  beBytes4 st.1 ++ beBytes4 st.2.1 ++ beBytes4 st.2.2.1 ++ beBytes4 st.2.2.2.1 ++
    beBytes4 st.2.2.2.2

/-! ## Torrent metadata model (`src/torrent/mod.rs`, `src/torrent/file.rs`,
`src/torrent/info_hash.rs`) -/

/-- `TorrentError` (payloads of foreign wrapped errors reduced to tags). -/
inductive TorrentError where
  | ioError
  | bencode (e : BencodeError)
  | invalidFormat (msg : String)
  | missingField (name : String)
  | invalidFieldType (name : String)
  | invalidPiecesHashLength
  | pathConversion (msg : String)
  | dateParseError
  | urlParse
  | httpRequest
  | bencodeDe
  | handshakeInvalidProtocol
  | handshakeInfoHashMismatch
  | handshakeTimeout
deriving DecidableEq

/-- `FileDict`: length and path segments of one file of a multi-file
torrent (segments are UTF-8-validated strings, kept as their bytes). -/
structure FileDict where
  length : Int
  path : List (List Nat)
deriving DecidableEq

/-- `InfoDict` (the `private` field is `private_flag` because `private` is
a Lean keyword). -/
structure InfoDict where
  piece_length : Int
  pieces : List Nat
  private_flag : Bool
  name : List Nat
  length : Option Int
  files : List FileDict
  is_directory : Bool
deriving DecidableEq

/-- `TorrentFile` (`creation_date` is the `SystemTime` as whole seconds
since the epoch, which is how the source builds it). -/
structure TorrentFile where
  announce : List Nat
  announce_list : List (List (List Nat))
  creation_date : Option Nat
  comment : List Nat
  created_by : List Nat
  encoding : List Nat
  info : InfoDict
  info_hash : List Nat
  pieces_hash : List (List Nat)
deriving DecidableEq

/-- The dictionary keys the parser looks up, as raw bytes. -/
def pieceLengthKey : List Nat := [112, 105, 101, 99, 101, 32, 108, 101, 110, 103, 116, 104]

def piecesKey : List Nat := [112, 105, 101, 99, 101, 115]

def privateKey : List Nat := [112, 114, 105, 118, 97, 116, 101]

def nameKey : List Nat := [110, 97, 109, 101]

def lengthKey : List Nat := [108, 101, 110, 103, 116, 104]

def filesKey : List Nat := [102, 105, 108, 101, 115]

def pathKey : List Nat := [112, 97, 116, 104]

def announceKey : List Nat := [97, 110, 110, 111, 117, 110, 99, 101]

def infoKey : List Nat := [105, 110, 102, 111]

def announceListKey : List Nat := [97, 110, 110, 111, 117, 110, 99, 101, 45, 108, 105, 115, 116]

/-- The exact bytes `TorrentFile::parse` looks up for the creation
timestamp: `"creation data"` (sic, `src/torrent/file.rs` line 390). -/
def creationDataKey : List Nat := [99, 114, 101, 97, 116, 105, 111, 110, 32, 100, 97, 116, 97]

/-- The BEP3 key `"creation date"` named by the specification. -/
def creationDateKey : List Nat := [99, 114, 101, 97, 116, 105, 111, 110, 32, 100, 97, 116, 101]

def commentKey : List Nat := [99, 111, 109, 109, 101, 110, 116]

def createdByKey : List Nat := [99, 114, 101, 97, 116, 101, 100, 32, 98, 121]

def encodingKey : List Nat := [101, 110, 99, 111, 100, 105, 110, 103]

/-- `HashMap::remove` on the association list: the removed value (if the
key is present) and the remaining entries. -/
def removeAssoc (k : List Nat) :
    List (List Nat × BencodeValue) → Option BencodeValue × List (List Nat × BencodeValue)
  | [] => (none, [])
  | (k1, v) :: t =>
    if k1 = k then (some v, t)
    else
      let r := removeAssoc k t
      (r.1, (k1, v) :: r.2)

/-- `calculate_info_hash`: SHA-1 of the bencode encoding of the (raw,
decoded) info dictionary.  The source's `Result` is always `Ok` because
encoding into a `Vec<u8>` cannot fail. -/
def calculate_info_hash (info_dict : List (List Nat × BencodeValue)) : List Nat :=
  sha1 (encode (.dict info_dict))

/-- Fixed-size chunking by `k` (fuel-driven; fuel `length` suffices). -/
def chunksKF (k : Nat) : Nat → List Nat → List (List Nat)
  | 0, _ => []
  | _ + 1, [] => []
  | f + 1, l => l.take k :: chunksKF k f (l.drop k)

/-- `parse_pieces`: the `pieces` byte string split into 20-byte hashes;
a length that is not a multiple of 20 is `InvalidPiecesHashLength`. -/
def parse_pieces (pieces_bytes : List Nat) : Except TorrentError (List (List Nat)) :=
  if pieces_bytes.length % 20 ≠ 0 then .error .invalidPiecesHashLength
  else .ok (chunksKF 20 pieces_bytes.length pieces_bytes)

/-- One tier of `parse_announce_list`: every tracker must be a UTF-8
string. -/
def parseTrackerTier : List BencodeValue → Except TorrentError (List (List Nat))
  | [] => .ok []
  | .str s :: rest =>
    if isValidUtf8 s then
      match parseTrackerTier rest with
      | .ok tier => .ok (s :: tier)
      | .error e => .error e
    else .error (.invalidFormat ("Invalid tracker URL (not UTF-8)"))
  | _ :: _ => .error (.invalidFormat ("Tracker URL not a string"))

/-- The tier loop of `parse_announce_list`: every tier must be a list. -/
def parseTiers : List BencodeValue → Except TorrentError (List (List (List Nat)))
  | [] => .ok []
  | .list trackers :: rest =>
    match parseTrackerTier trackers with
    | .error e => .error e
    | .ok tier =>
      match parseTiers rest with
      | .ok tiers => .ok (tier :: tiers)
      | .error e => .error e
  | _ :: _ => .error (.invalidFormat ("Announce tier not a list"))

/-- `parse_announce_list`: a list of lists of UTF-8 strings. -/
def parse_announce_list (value : BencodeValue) : Except TorrentError (List (List (List Nat))) :=
  match value with
  | .list tiers => parseTiers tiers
  | _ => .error (.invalidFormat ("Announce-list not a list"))

/-- The path-component loop of the `files` parser: every component must be
a UTF-8 string. -/
def parsePathComponents : List BencodeValue → Except TorrentError (List (List Nat))
  | [] => .ok []
  | .str s :: rest =>
    if isValidUtf8 s then
      match parsePathComponents rest with
      | .ok path => .ok (s :: path)
      | .error e => .error e
    else .error (.invalidFormat ("Invalid file path (not UTF-8)"))
  | _ :: _ => .error (.invalidFormat ("File path component not a string"))

/-- The file-entry loop of the `files` parser: every entry must be a
dictionary with an integer `length` and a list-of-strings `path`. -/
def parseFilesList : List BencodeValue → Except TorrentError (List FileDict)
  | [] => .ok []
  | .dict file_dict :: rest =>
    match lookupA lengthKey file_dict with
    | some (.int length) =>
      (match lookupA pathKey file_dict with
      | some (.list path_list) =>
        (match parsePathComponents path_list with
        | .ok path =>
          (match parseFilesList rest with
          | .ok files => .ok ({ length := length, path := path } :: files)
          | .error e => .error e)
        | .error e => .error e)
      | _ => .error (.missingField ("file path")))
    | _ => .error (.missingField ("file length"))
  | _ :: _ => .error (.invalidFormat ("File entry not a dict"))

/-- `parse_info_dict`: extracts `piece length`, `pieces`, `private`,
`name`, `length` and `files` from the info dictionary. -/
def parse_info_dict (value : BencodeValue) : Except TorrentError InfoDict :=
  match value with
  | .dict dict =>
    match lookupA pieceLengthKey dict with
    | some (.int piece_length) =>
      (match lookupA piecesKey dict with
      | some (.str pieces_bytes) =>
        let private_flag := match lookupA privateKey dict with
          | some (.int 1) => true
          | _ => false
        (match lookupA nameKey dict with
        | some (.str name_bytes) =>
          if isValidUtf8 name_bytes then
            let length := match lookupA lengthKey dict with
              | some (.int i) => some i
              | _ => none
            let filesR : Except TorrentError (List FileDict) :=
              match lookupA filesKey dict with
              | some (.list list) => parseFilesList list
              | _ => .ok []
            match filesR with
            | .error e => .error e
            | .ok files =>
              .ok { piece_length := piece_length, pieces := pieces_bytes,
                    private_flag := private_flag, name := name_bytes,
                    length := length, files := files,
                    is_directory := !files.isEmpty }
          else .error (.invalidFormat ("Invalid name (not UTF-8)"))
        | _ => .error (.missingField ("name")))
      | _ => .error (.missingField ("pieces")))
    | _ => .error (.missingField ("piece length"))
  | _ => .error (.invalidFormat ("Info is not a dictionary"))

/-- `TorrentFile::parse` (`src/torrent/file.rs` lines 350-437), including
its lookup of the creation timestamp under the byte string
`"creation data"`. -/
def TorrentFile.parse (data : BencodeValue) : Except TorrentError TorrentFile :=
  match data with
  | .dict d0 =>
    let ra := removeAssoc announceKey d0
    match ra.1 with
    | none => .error (.missingField ("announce"))
    | some (.str announce_s) =>
      if isValidUtf8 announce_s then
        let ri := removeAssoc infoKey ra.2
        match ri.1 with
        | none => .error (.missingField ("info"))
        | some info_dict_value =>
          match info_dict_value with
          | .dict info_dict_map =>
            (match parse_info_dict (.dict info_dict_map) with
            | .error e => .error e
            | .ok info =>
              let ral := removeAssoc announceListKey ri.2
              let announceListR : Except TorrentError (List (List (List Nat))) :=
                match ral.1 with
                | some v => parse_announce_list v
                | none => .ok []
              match announceListR with
              | .error e => .error e
              | .ok announce_list =>
                let rcd := removeAssoc creationDataKey ral.2
                let creationR : Except TorrentError (Option Nat) :=
                  match rcd.1 with
                  | some (.int timestamp) =>
                    if timestamp < 0 then .error .dateParseError
                    else .ok (some timestamp.toNat)
                  | some _ => .error (.invalidFormat ("Creation date not an integer"))
                  | none => .ok none
                match creationR with
                | .error e => .error e
                | .ok creation_date =>
                  let rc := removeAssoc commentKey rcd.2
                  let comment := match rc.1 with
                    | some (.str s) => if isValidUtf8 s then s else []
                    | _ => []
                  let rcb := removeAssoc createdByKey rc.2
                  let created_by := match rcb.1 with
                    | some (.str s) => if isValidUtf8 s then s else []
                    | _ => []
                  let re := removeAssoc encodingKey rcb.2
                  let encoding := match re.1 with
                    | some (.str s) => if isValidUtf8 s then s else []
                    | _ => []
                  let info_hash := calculate_info_hash info_dict_map
                  match parse_pieces info.pieces with
                  | .error e => .error e
                  | .ok pieces_hash =>
                    .ok { announce := announce_s, announce_list := announce_list,
                          creation_date := creation_date, comment := comment,
                          created_by := created_by, encoding := encoding,
                          info := info, info_hash := info_hash,
                          pieces_hash := pieces_hash })
          | _ => .error (.invalidFormat ("info is not a dict"))
      else .error (.invalidFormat ("Invalid announce Url (not UTF-8)"))
    | some _ => .error (.missingField ("announce(not string)"))
  | _ => .error (.invalidFormat ("Root is not a dictionary"))

/-- `TorrentFile::total_length`: the `length` field for a single-file
torrent (0 if absent), the sum of file lengths otherwise. -/
def TorrentFile.total_length (t : TorrentFile) : Int :=
  if ¬ t.info.is_directory then t.info.length.getD 0
  else (t.info.files.map FileDict.length).sum

/-- `TorrentFile::num_pieces`: the number of 20-byte hashes. -/
def TorrentFile.num_pieces (t : TorrentFile) : Nat := t.pieces_hash.length

/-- `TorrentFile::piece_size` (`src/torrent/file.rs` lines 286-303). -/
def TorrentFile.piece_size (t : TorrentFile) (index : Nat) : Int :=
  if index ≥ t.num_pieces then 0
  else if index < t.num_pieces - 1 then t.info.piece_length
  else
    let total_length := t.total_length
    let full_pieces_length : Int := ((t.num_pieces - 1 : Nat) : Int) * t.info.piece_length
    let last_piece_size := total_length - full_pieces_length
    if last_piece_size = 0 ∧ t.num_pieces > 0 then t.info.piece_length
    else last_piece_size

/-- The file loop of `file_paths_for_piece`: walks the files with a running
cursor, keeping each file whose range overlaps the piece range; a kept path
is the root name followed by the file's components (`PathBuf::join`). -/
def filePathsLoop (name : List Nat) (piece_start piece_end : Int) :
    Int → List FileDict → List (List (List Nat))
  | _, [] => []
  | cursor, f :: rest =>
    let file_start := cursor
    let file_end := file_start + f.length
    (if file_end > piece_start ∧ file_start < piece_end then [name :: f.path] else []) ++
      filePathsLoop name piece_start piece_end file_end rest

/-- `TorrentFile::file_paths_for_piece` (`src/torrent/file.rs` lines
313-338). -/
def TorrentFile.file_paths_for_piece (t : TorrentFile) (index : Nat) :
    List (List (List Nat)) :=
  if index ≥ t.num_pieces then []
  else
    let piece_start := (index : Int) * t.info.piece_length
    let piece_end := piece_start + t.piece_size index
    if ¬ t.info.is_directory then [[t.info.name]]
    else filePathsLoop t.info.name piece_start piece_end 0 t.info.files

/-! ## Tracker announce client (`src/tracker/mod.rs`) -/

/-- `IpAddr` (the non-compact branch of the source also accepts IPv6
literals via the standard library; no claim exercises that branch, and the
model parses only the IPv4 textual form). -/
inductive IpAddr where
  | v4 (a b c d : Nat)
  | v6 (segments : List Nat)
deriving DecidableEq

/-- A peer returned by the tracker. -/
structure Peer where
  ip : IpAddr
  port : Nat
deriving DecidableEq

/-- The parsed announce response. -/
structure AnnounceResponse where
  interval : Int
  peers : List Peer
deriving DecidableEq

/-- One dictionary of the non-compact `peers` form. -/
structure PeerDict where
  ip : List Nat
  port : Nat
deriving DecidableEq

/-- The polymorphic `peers` field after `serde_bencode` deserialization:
a byte string (compact) or a list of dictionaries (non-compact). -/
inductive PeersField where
  | compact (bytes : List Nat)
  | nonCompact (dicts : List PeerDict)
deriving DecidableEq

/-- The deserialized `TrackerResponse` (missing `interval`/`peers` already
defaulted to `0`/empty compact by serde, per the `#[serde(default)]`
attributes). -/
structure TrackerResponse where
  interval : Int
  peers : PeersField
deriving DecidableEq

/-- `chunks_exact(6)`: successive complete 6-byte groups, any trailing 1-5
bytes discarded. -/
def chunks_exact6 : List Nat → List (List Nat)
  | b0 :: b1 :: b2 :: b3 :: b4 :: b5 :: rest => [b0, b1, b2, b3, b4, b5] :: chunks_exact6 rest
  | _ => []

/-- One compact peer: 4-byte IPv4 address then a big-endian 2-byte port. -/
def peerOfChunk (c : List Nat) : Peer :=
  { ip := .v4 (c.getD 0 0) (c.getD 1 0) (c.getD 2 0) (c.getD 3 0),
    port := 256 * c.getD 4 0 + c.getD 5 0 }

/-- Split a byte string at `.` (46), for IPv4 literal parsing. -/
def splitDots : List Nat → List (List Nat)
  | [] => [[]]
  | b :: rest =>
    let r := splitDots rest
    if b = 46 then [] :: r
    else
      match r with
      | h :: t => (b :: h) :: t
      | [] => [[b]]

/-- One octet of an IPv4 literal: 1-3 decimal digits, value at most 255, no
leading zero (Rust's `Ipv4Addr` parser rejects leading zeros). -/
def parseOctet (bs : List Nat) : Option Nat :=
  if bs = [] then none
  else if ¬ bs.all isDigitByte then none
  else if bs.length > 1 ∧ bs.head? = some 48 then none
  else if bs.length > 3 then none
  else
    let v := digitsVal bs
    if v ≤ 255 then some v else none

/-- Rust's `IpAddr::from_str` restricted to the IPv4 dotted-quad form (see
the `IpAddr` model note). -/
def parseIpv4Literal (bs : List Nat) : Option IpAddr :=
  match splitDots bs with
  | [p0, p1, p2, p3] =>
    match parseOctet p0, parseOctet p1, parseOctet p2, parseOctet p3 with
    | some a, some b, some c, some d => some (.v4 a b c d)
    | _, _, _, _ => none
  | _ => none

/-- The peer-extraction step of `Client::parse_announce_response`
(`src/tracker/mod.rs` lines 136-171), modelled on the already-deserialized
`TrackerResponse` (the `serde_bencode::from_bytes` step belongs to the
external crate): the compact form maps each complete 6-byte group to a
peer, the non-compact form keeps the dictionaries whose `ip` parses,
silently dropping the rest.  This step is total — it never errors. -/
def parse_announce_response (tr : TrackerResponse) : AnnounceResponse :=
  { interval := tr.interval,
    peers :=
      match tr.peers with
      | .compact bytes => (chunks_exact6 bytes).map peerOfChunk
      | .nonCompact dicts =>
        dicts.filterMap (fun d =>
          (parseIpv4Literal d.ip).map (fun ip => { ip := ip, port := d.port })) }

/-- Is the byte in the RFC 3986 unreserved set
`[A-Za-z0-9-._~]`? -/
def isUnreservedByte (b : Nat) : Bool :=
  (97 ≤ b && b ≤ 122) || (65 ≤ b && b ≤ 90) || (48 ≤ b && b ≤ 57) ||
    b = 45 || b = 46 || b = 95 || b = 126

/-- The uppercase hexadecimal digit of a value below 16. -/
def hexDigitUpper (n : Nat) : Nat := if n < 10 then 48 + n else 55 + n

/-- `url_encode` (`src/tracker/mod.rs` lines 217-230): unreserved bytes
kept, every other byte as `%XX` with uppercase hex digits. -/
def url_encode (bytes : List Nat) : List Nat :=
  (bytes.map (fun b =>
    if isUnreservedByte b then [b]
    else [37, hexDigitUpper (b / 16), hexDigitUpper (b % 16)])).flatten

/-- One byte of the `application/x-www-form-urlencoded` serialization used
by the `url` crate's `query_pairs_mut().extend_pairs(..)` (which
`Client::announce` applies to each parameter value): space becomes `+`,
ASCII alphanumerics and `*-._` stay, every other byte becomes `%XX` with
uppercase hex digits.  Modelled from the `url`/`form_urlencoded` crate's
documented serialization; that crate is outside this repository. -/
def formUrlencodedByte (b : Nat) : List Nat :=
  if b = 32 then [43]
  else if (97 ≤ b && b ≤ 122) || (65 ≤ b && b ≤ 90) || (48 ≤ b && b ≤ 57) ||
      b = 42 || b = 45 || b = 46 || b = 95 then [b]
  else [37, hexDigitUpper (b / 16), hexDigitUpper (b % 16)]

/-- The `form_urlencoded` serialization of a whole value string. -/
def formUrlencoded (bs : List Nat) : List Nat := (bs.map formUrlencodedByte).flatten

/-- The bytes that actually appear as the `info_hash` (or `peer_id`) query
parameter value in the announce URL: `Client::announce` first applies
`url_encode` to the raw 20 bytes and then hands the resulting string to
`query_pairs_mut().extend_pairs(..)`, which serializes it again. -/
def announce_param_value (raw : List Nat) : List Nat :=
  formUrlencoded (url_encode raw)

/-! ## Peer handshake (`src/peer/handshake.rs`) -/

/-- The 19 bytes of `"BitTorrent protocol"`. -/
def protocolBytes : List Nat :=
  [66, 105, 116, 84, 111, 114, 114, 101, 110, 116, 32, 112, 114, 111, 116, 111, 99, 111, 108]

/-- The `Handshake` frame fields. -/
structure Handshake where
  protocol_len : Nat
  protocol : List Nat
  reserved : List Nat
  info_hash : List Nat
  peer_id : List Nat
deriving DecidableEq

/-- `Handshake::new`. -/
def Handshake.new (info_hash peer_id : List Nat) : Handshake :=
  { protocol_len := 19, protocol := protocolBytes, reserved := List.replicate 8 0,
    info_hash := info_hash, peer_id := peer_id }

/-- `Handshake::serialize`: the 68-byte frame (the reserved bytes are
written as zeros). -/
def Handshake.serialize (h : Handshake) : List Nat :=
  h.protocol_len :: h.protocol ++ List.replicate 8 0 ++ h.info_hash ++ h.peer_id

/-- The failure domain of `do_handshake`: its return type erases error
types into `anyhow::Error`, which can carry a propagated I/O error, a typed
`TorrentError` (which the `TorrentError` enum declares the handshake kinds
for), or an ad-hoc message built with the `anyhow!` macro.  Each ad-hoc
message the source formats is modelled as its own constructor carrying the
formatted data. -/
inductive HandshakeFailure where
  | ioError
  | adhocInvalidProtocolLen (len : Nat)
  | adhocInvalidProtocol (protocol : List Nat)
  | adhocInfoHashMismatch (got expected : List Nat)
  | torrentKind (e : TorrentError)
deriving DecidableEq

/-- Steps 4-6 of `Handshake::do_handshake` (`src/peer/handshake.rs` lines
189-254): reading and validating the remote's reply.  The connect and send
steps are network I/O; the remote's byte stream is the explicit input here.
Reading past the end of the stream is a propagated I/O error
(`read_exact` = `UnexpectedEof`). -/
def do_handshake_recv (remote : List Nat) (info_hash : List Nat) :
    Except HandshakeFailure Handshake :=
  match remote with
  | [] => .error .ioError
  | protocol_len :: rest =>
    if protocol_len ≠ 19 then .error (.adhocInvalidProtocolLen protocol_len)
    else if rest.length < 67 then .error .ioError
    else
      let buf := rest.take 67
      let protocol := buf.take 19
      if protocol ≠ protocolBytes then .error (.adhocInvalidProtocol protocol)
      else
        let reserved := (buf.drop 19).take 8
        let peer_info_hash := (buf.drop 27).take 20
        let peer_peer_id := (buf.drop 47).take 20
        if peer_info_hash ≠ info_hash then
          .error (.adhocInfoHashMismatch peer_info_hash info_hash)
        else
          .ok { protocol_len := protocol_len, protocol := protocolBytes,
                reserved := reserved, info_hash := peer_info_hash,
                peer_id := peer_peer_id }

/-! ## Basic lemmas about sizes, lookups and sorting -/

theorem bsize_pos : ∀ v, 0 < bsize v := by
  intro v
  cases v <;> simp [bsize]

theorem bsizeL_of_mem {v : BencodeValue} : ∀ {l : List BencodeValue}, v ∈ l →
    bsize v < 1 + bsizeL l := by
  intro l
  induction l with
  | nil => intro h; cases h
  | cons w t ih =>
    intro h
    rcases List.mem_cons.mp h with h | h
    · subst h; simp [bsizeL]; omega
    · have := ih h; simp [bsizeL]; omega

theorem bsizeP_of_mem {k : List Nat} {v : BencodeValue} :
    ∀ {d : List (List Nat × BencodeValue)}, (k, v) ∈ d → bsize v < 1 + bsizeP d := by
  intro d
  induction d with
  | nil => intro h; cases h
  | cons p t ih =>
    intro h
    rcases List.mem_cons.mp h with h | h
    · subst h; simp [bsizeP]; omega
    · have := ih h
      rcases p with ⟨k1, v1⟩
      simp [bsizeP]; omega

theorem lookupA_mem {k : List Nat} {v : BencodeValue} :
    ∀ {d : List (List Nat × BencodeValue)}, lookupA k d = some v → (k, v) ∈ d := by
  intro d
  induction d with
  | nil => intro h; simp [lookupA] at h
  | cons p t ih =>
    intro h
    rcases p with ⟨k1, v1⟩
    by_cases hk : k1 = k
    · subst hk
      simp [lookupA] at h
      subst h
      exact List.mem_cons_self _ _
    · simp [lookupA, hk] at h
      exact List.mem_cons_of_mem _ (ih h)

theorem lookupA_isSome_of_mem {k : List Nat} :
    ∀ {d : List (List Nat × BencodeValue)}, k ∈ d.map Prod.fst →
      ∃ v, lookupA k d = some v := by
  intro d
  induction d with
  | nil => intro h; simp at h
  | cons p t ih =>
    intro h
    rcases p with ⟨k1, v1⟩
    by_cases hk : k1 = k
    · exact ⟨v1, by simp [lookupA, hk]⟩
    · simp only [List.map_cons, List.mem_cons] at h
      rcases h with h | h
      · exact absurd h.symm hk
      · rcases ih h with ⟨v, hv⟩
        exact ⟨v, by simp [lookupA, hk, hv]⟩

theorem lookupA_eq_of_mem_nodup {k : List Nat} {v : BencodeValue} :
    ∀ {d : List (List Nat × BencodeValue)}, (d.map Prod.fst).Nodup → (k, v) ∈ d →
      lookupA k d = some v := by
  intro d
  induction d with
  | nil => intro _ h; cases h
  | cons p t ih =>
    intro hnd h
    rcases p with ⟨k1, v1⟩
    simp only [List.map_cons, List.nodup_cons] at hnd
    rcases List.mem_cons.mp h with h | h
    · rw [Prod.mk.injEq] at h
      simp [lookupA, h.1.symm, h.2]
    · have hk1 : k1 ≠ k := by
        intro he
        subst he
        exact hnd.1 (List.mem_map.mpr ⟨(k1, v), h, rfl⟩)
      simp [lookupA, hk1]
      exact ih hnd.2 h

theorem encodeF_fuel_eq : ∀ (n : Nat) (v : BencodeValue) (f g : Nat), bsize v ≤ n →
    bsize v ≤ f → bsize v ≤ g → encodeF f v = encodeF g v := by
  intro n
  induction n with
  | zero =>
    intro v f g h _ _
    exact absurd h (by have := bsize_pos v; omega)
  | succ n ih =>
    intro v f g hn hf hg
    have h1 := bsize_pos v
    rcases f with _ | f
    · omega
    rcases g with _ | g
    · omega
    cases v with
    | str s => simp [encodeF]
    | int i => simp [encodeF]
    | list l =>
      have hb : bsize (BencodeValue.list l) = 1 + bsizeL l := rfl
      rw [hb] at hn hf hg
      simp only [encodeF]
      congr 2
      refine congrArg List.flatten (List.map_congr_left ?_)
      intro x hx
      have hs : bsize x < 1 + bsizeL l := bsizeL_of_mem hx
      exact ih x f g (by omega) (by omega) (by omega)
    | dict d =>
      have hb : bsize (BencodeValue.dict d) = 1 + bsizeP d := rfl
      rw [hb] at hn hf hg
      simp only [encodeF]
      congr 2
      refine congrArg List.flatten (List.map_congr_left ?_)
      intro k _
      congr 1
      cases hl : lookupA k d with
      | none => rfl
      | some w =>
        have hs : bsize w < 1 + bsizeP d := bsizeP_of_mem (lookupA_mem hl)
        exact ih w f g (by omega) (by omega) (by omega)

theorem encode_str_def (s : List Nat) : encode (.str s) = encode_string s := rfl

theorem encode_int_def (i : Int) : encode (.int i) = encode_integer i := rfl

theorem encode_list_def (l : List BencodeValue) :
    encode (.list l) = 108 :: (l.map encode).flatten ++ [101] := by
  show encodeF (bsize (.list l)) (.list l) = _
  have hb : bsize (BencodeValue.list l) = bsizeL l + 1 := by
    show 1 + bsizeL l = _
    omega
  rw [hb]
  simp only [encodeF]
  congr 2
  refine congrArg List.flatten (List.map_congr_left ?_)
  intro x hx
  have hs : bsize x < 1 + bsizeL l := bsizeL_of_mem hx
  exact encodeF_fuel_eq (bsize x) x (bsizeL l) (bsize x) le_rfl (by omega) le_rfl

theorem encode_dict_def (d : List (List Nat × BencodeValue)) :
    encode (.dict d) = 100 :: ((sortKeys (d.map Prod.fst)).map (fun k =>
      encode_string k ++
        match lookupA k d with
        | some v1 => encode v1
        | none => [])).flatten ++ [101] := by
  show encodeF (bsize (.dict d)) (.dict d) = _
  have hb : bsize (BencodeValue.dict d) = bsizeP d + 1 := by
    show 1 + bsizeP d = _
    omega
  rw [hb]
  simp only [encodeF]
  congr 2
  refine congrArg List.flatten (List.map_congr_left ?_)
  intro k _
  congr 1
  cases hl : lookupA k d with
  | none => rfl
  | some w =>
    have hs : bsize w < 1 + bsizeP d := bsizeP_of_mem (lookupA_mem hl)
    exact encodeF_fuel_eq (bsize w) w (bsizeP d) (bsize w) le_rfl (by omega) le_rfl

theorem sortKeys_perm (l : List (List Nat)) : (sortKeys l).Perm l :=
  List.perm_insertionSort keyLe l

theorem sortKeys_sorted (l : List (List Nat)) : List.Sorted keyLe (sortKeys l) :=
  List.sorted_insertionSort keyLe l

theorem sortKeys_congr {l1 l2 : List (List Nat)} (h : l1.Perm l2) :
    sortKeys l1 = sortKeys l2 :=
  List.eq_of_perm_of_sorted (((sortKeys_perm l1).trans h).trans (sortKeys_perm l2).symm)
    (sortKeys_sorted l1) (sortKeys_sorted l2)

theorem lookupA_of_perm {k : List Nat} :
    ∀ {d1 d2 : List (List Nat × BencodeValue)}, d1.Perm d2 → (d1.map Prod.fst).Nodup →
      lookupA k d1 = lookupA k d2 := by
  intro d1 d2 h
  induction h with
  | nil => intro _; rfl
  | cons p h ih =>
    rcases p with ⟨k1, v1⟩
    intro hnd
    simp only [List.map_cons, List.nodup_cons] at hnd
    by_cases hk : k1 = k
    · simp [lookupA, hk]
    · simp only [lookupA, hk, if_false]
      exact ih hnd.2
  | swap x y l =>
    rcases x with ⟨kx, vx⟩
    rcases y with ⟨ky, vy⟩
    intro hnd
    simp only [List.map_cons, List.nodup_cons, List.mem_cons] at hnd
    have hxy : ky ≠ kx := fun he => hnd.1 (Or.inl he)
    by_cases h1 : ky = k
    · subst h1
      simp [lookupA, hxy.symm]
    · by_cases h2 : kx = k
      · subst h2
        simp [lookupA, h1]
      · simp [lookupA, h1, h2]
  | trans h1 h2 ih1 ih2 =>
    intro hnd
    exact (ih1 hnd).trans (ih2 ((h1.map Prod.fst).nodup hnd))

theorem encode_dict_of_perm {d1 d2 : List (List Nat × BencodeValue)} (hp : d1.Perm d2)
    (hnd : (d1.map Prod.fst).Nodup) : encode (.dict d1) = encode (.dict d2) := by
  rw [encode_dict_def, encode_dict_def]
  have hkeys : sortKeys (d1.map Prod.fst) = sortKeys (d2.map Prod.fst) :=
    sortKeys_congr (hp.map Prod.fst)
  rw [← hkeys]
  congr 2
  refine congrArg List.flatten (List.map_congr_left ?_)
  intro k _
  rw [lookupA_of_perm hp hnd]

/-- C2: the encoder emits dictionary entries in byte-lexicographic key
order regardless of the iteration order of the underlying mapping: two
association lists representing the same `HashMap` (permutations of each
other, keys unique) encode to the same bytes, the emitted key sequence is
byte-lexicographically sorted, and the dictionary mapping `"b"` to 1 and
`"a"` to 2 encodes exactly to `d1:ai2e1:bi1ee`. -/
theorem C2_dict_canonical_order :
    (∀ (d1 d2 : List (List Nat × BencodeValue)), d1.Perm d2 → (d1.map Prod.fst).Nodup →
      encode (.dict d1) = encode (.dict d2)) ∧
    (∀ d : List (List Nat × BencodeValue),
      List.Sorted keyLe (sortKeys (d.map Prod.fst))) ∧
    encode (.dict [([98], .int 1), ([97], .int 2)]) =
      [100, 49, 58, 97, 105, 50, 101, 49, 58, 98, 105, 49, 101, 101] :=
  ⟨fun _ _ hp hnd => encode_dict_of_perm hp hnd,
   fun d => sortKeys_sorted (d.map Prod.fst),
   rfl⟩

/-- Witness for C2: the first conjunct applied to the two insertion orders
of the dictionary mapping `"b"` to 1 and `"a"` to 2. -/
theorem C2_dict_canonical_order_witness :
    encode (.dict [([98], .int 1), ([97], .int 2)]) =
      encode (.dict [([97], .int 2), ([98], .int 1)]) :=
  C2_dict_canonical_order.1 _ _ (List.Perm.swap _ _ []) (by decide)

/-- C4: `piece_size` returns 0 for an out-of-range index, `piece_length`
for every piece before the last, and for the last piece the remainder
`total_length - (num_pieces - 1) * piece_length`, except that a remainder
of exactly 0 (with at least one piece) yields `piece_length` instead. -/
theorem C4_piece_size_cases (t : TorrentFile) (i : Nat) :
    (t.num_pieces ≤ i → t.piece_size i = 0) ∧
    (i + 1 < t.num_pieces → t.piece_size i = t.info.piece_length) ∧
    (i + 1 = t.num_pieces →
      t.piece_size i =
        if t.total_length - ((t.num_pieces - 1 : Nat) : Int) * t.info.piece_length = 0
        then t.info.piece_length
        else t.total_length - ((t.num_pieces - 1 : Nat) : Int) * t.info.piece_length) := by
  refine ⟨?_, ?_, ?_⟩
  · intro h
    simp [TorrentFile.piece_size, h]
  · intro h
    have h1 : ¬ i ≥ t.num_pieces := by omega
    have h2 : i < t.num_pieces - 1 := by omega
    simp [TorrentFile.piece_size, h1, h2]
  · intro h
    have h1 : ¬ i ≥ t.num_pieces := by omega
    have h2 : ¬ i < t.num_pieces - 1 := by omega
    have h3 : 0 < t.num_pieces := by omega
    by_cases hz :
      t.total_length - ((t.num_pieces - 1 : Nat) : Int) * t.info.piece_length = 0
    · simp [TorrentFile.piece_size, h1, h2, hz, h3]
    · simp [TorrentFile.piece_size, h1, h2, hz]

/-- The single-file example torrent of the specification: total length
1048576, piece length 262144, four pieces. -/
def c4ExampleTorrent : TorrentFile :=
  { announce := [97], announce_list := [], creation_date := none, comment := [],
    created_by := [], encoding := [],
    info := { piece_length := 262144, pieces := [], private_flag := false,
              name := [102], length := some 1048576, files := [],
              is_directory := false },
    info_hash := [], pieces_hash := [[], [], [], []] }

/-- Witness for C4: on the example torrent (exact multiple of the piece
length), `num_pieces` is 4 and the last piece is still full-length. -/
theorem C4_piece_size_cases_witness :
    c4ExampleTorrent.num_pieces = 4 ∧ c4ExampleTorrent.piece_size 3 = 262144 := by
  refine ⟨rfl, ?_⟩
  have h := (C4_piece_size_cases c4ExampleTorrent 3).2.2 (by rfl)
  rw [h]
  decide

theorem filePathsLoop_spec (name : List Nat) (ps pe : Int) :
    ∀ (fs : List FileDict) (cur : Int),
      filePathsLoop name ps pe cur fs =
        ((fs.zip ((fs.map FileDict.length).scanl (· + ·) cur)).filter
          (fun p => decide (p.2 + p.1.length > ps) && decide (p.2 < pe))).map
          (fun p => name :: p.1.path) := by
  intro fs
  induction fs with
  | nil => intro cur; rfl
  | cons f rest ih =>
    intro cur
    simp only [filePathsLoop, List.map_cons, List.scanl_cons, List.singleton_append,
      List.zip_cons_cons, List.filter_cons]
    by_cases h1 : cur + f.length > ps
    · by_cases h2 : cur < pe
      · simp [h1, h2, ih]
      · simp [h1, h2, ih]
    · simp [h1, ih]

/-- C9: `file_paths_for_piece` returns the empty list for an out-of-range
index; the single root path for any valid index of a single-file torrent;
and, for a multi-file torrent, exactly the root-joined paths of the files
(in file-list order, each paired with its start offset under the running
concatenation from 0) whose byte range overlaps the piece's range
`[index * piece_length, index * piece_length + piece_size index)` per the
condition `file_end > piece_start && file_start < piece_end`. -/
theorem C9_file_paths_for_piece (t : TorrentFile) (i : Nat) :
    (t.num_pieces ≤ i → t.file_paths_for_piece i = []) ∧
    (i < t.num_pieces → t.info.is_directory = false →
      t.file_paths_for_piece i = [[t.info.name]]) ∧
    (i < t.num_pieces → t.info.is_directory = true →
      t.file_paths_for_piece i =
        ((t.info.files.zip ((t.info.files.map FileDict.length).scanl (· + ·) 0)).filter
          (fun p => decide (p.2 + p.1.length > (i : Int) * t.info.piece_length) &&
            decide (p.2 < (i : Int) * t.info.piece_length + t.piece_size i))).map
          (fun p => t.info.name :: p.1.path)) := by
  refine ⟨?_, ?_, ?_⟩
  · intro h
    simp [TorrentFile.file_paths_for_piece, h]
  · intro h hdir
    have h1 : ¬ i ≥ t.num_pieces := by omega
    simp [TorrentFile.file_paths_for_piece, h1, hdir]
  · intro h hdir
    have h1 : ¬ i ≥ t.num_pieces := by omega
    simp only [TorrentFile.file_paths_for_piece, h1, if_false, ge_iff_le, hdir,
      Bool.not_true, Bool.false_eq_true, if_neg]
    rw [if_neg (by simp [hdir])]
    exact filePathsLoop_spec t.info.name _ _ t.info.files 0

/-- The multi-file example of the specification: files of lengths 100 and
5000 with piece length 1024 (5 pieces). -/
def c9ExampleTorrent : TorrentFile :=
  { announce := [97], announce_list := [], creation_date := none, comment := [],
    created_by := [], encoding := [],
    info := { piece_length := 1024, pieces := [], private_flag := false,
              name := [110], length := none,
              files := [{ length := 100, path := [[112]] },
                        { length := 5000, path := [[113]] }],
              is_directory := true },
    info_hash := [], pieces_hash := [[], [], [], [], []] }

/-- Witness for C9: piece 0 of the multi-file example overlaps both files,
a valid index of the single-file example returns the one root path, and an
out-of-range index returns the empty list. -/
theorem C9_file_paths_for_piece_witness :
    c9ExampleTorrent.file_paths_for_piece 0 = [[[110], [112]], [[110], [113]]] ∧
    c4ExampleTorrent.file_paths_for_piece 2 = [[[102]]] ∧
    c9ExampleTorrent.file_paths_for_piece 7 = [] :=
  ⟨((C9_file_paths_for_piece c9ExampleTorrent 0).2.2 (by decide) rfl).trans (by decide),
   (C9_file_paths_for_piece c4ExampleTorrent 2).2.1 (by decide) rfl,
   (C9_file_paths_for_piece c9ExampleTorrent 7).1 (by decide)⟩

theorem chunks_exact6_length : ∀ (bs : List Nat), (chunks_exact6 bs).length = bs.length / 6
  | [] => by simp [chunks_exact6]
  | [_] => by simp [chunks_exact6]
  | [_, _] => by simp [chunks_exact6]
  | [_, _, _] => by simp [chunks_exact6]
  | [_, _, _, _] => by simp [chunks_exact6]
  | [_, _, _, _, _] => by simp [chunks_exact6]
  | _ :: _ :: _ :: _ :: _ :: _ :: rest => by
    have ih := chunks_exact6_length rest
    simp [chunks_exact6, ih]
    omega

theorem chunks_exact6_getElem? :
    ∀ (bs : List Nat) (j : Nat), j < bs.length / 6 →
      (chunks_exact6 bs)[j]? = some ((bs.drop (6 * j)).take 6)
  | [], j, h => absurd h (by simp)
  | [_], j, h => absurd h (by simp)
  | [_, _], j, h => absurd h (by simp)
  | [_, _, _], j, h => absurd h (by simp)
  | [_, _, _, _], j, h => absurd h (by simp)
  | [_, _, _, _, _], j, h => absurd h (by simp)
  | b0 :: b1 :: b2 :: b3 :: b4 :: b5 :: rest, 0, _ => by
    simp [chunks_exact6]
  | b0 :: b1 :: b2 :: b3 :: b4 :: b5 :: rest, j + 1, h => by
    have hlen : (b0 :: b1 :: b2 :: b3 :: b4 :: b5 :: rest).length = rest.length + 6 := by
      simp
    rw [hlen] at h
    have ih := chunks_exact6_getElem? rest j (by omega)
    have hd : (b0 :: b1 :: b2 :: b3 :: b4 :: b5 :: rest).drop (6 * (j + 1)) =
        rest.drop (6 * j) := by
      rw [show 6 * (j + 1) = 6 * j + 1 + 1 + 1 + 1 + 1 + 1 by ring]
      simp only [List.drop_succ_cons]
    rw [hd]
    simpa [chunks_exact6] using ih

/-- C10: a tracker response carrying compact-form peers decodes exactly
`⌊len / 6⌋` peers from the `peers` byte string (trailing 1-5 bytes are
silently discarded, the extraction is total and never errors or emits a
partial entry); peer `j` is built from bytes `6j..6j+5` as a 4-byte IPv4
address and a big-endian 2-byte port. -/
theorem C10_compact_peers (interval : Int) (bs : List Nat) :
    (parse_announce_response { interval := interval, peers := .compact bs }).peers.length
        = bs.length / 6 ∧
    ∀ j, j < bs.length / 6 →
      (parse_announce_response { interval := interval, peers := .compact bs }).peers[j]? =
        some (Peer.mk
          (IpAddr.v4 (bs.getD (6 * j) 0) (bs.getD (6 * j + 1) 0) (bs.getD (6 * j + 2) 0)
            (bs.getD (6 * j + 3) 0))
          (256 * bs.getD (6 * j + 4) 0 + bs.getD (6 * j + 5) 0)) := by
  constructor
  · show ((chunks_exact6 bs).map peerOfChunk).length = bs.length / 6
    rw [List.length_map, chunks_exact6_length]
  · intro j hj
    have hch := chunks_exact6_getElem? bs j hj
    show ((chunks_exact6 bs).map peerOfChunk)[j]? = _
    rw [List.getElem?_map, hch, Option.map_some']
    congr 1
    have hgd : ∀ k, k < 6 → ((bs.drop (6 * j)).take 6).getD k 0 = bs.getD (6 * j + k) 0 := by
      intro k hk
      simp [List.getD_eq_getElem?_getD, List.getElem?_take, hk, List.getElem?_drop]
    simp only [peerOfChunk]
    rw [hgd 0 (by norm_num), hgd 1 (by norm_num), hgd 2 (by norm_num), hgd 3 (by norm_num),
      hgd 4 (by norm_num), hgd 5 (by norm_num)]
    norm_num

/-- Witness for C10: the 6-byte compact entry `[127, 0, 0, 1, 0x1A, 0xE1]`
decodes to the single peer 127.0.0.1:6881. -/
theorem C10_compact_peers_witness :
    (parse_announce_response { interval := 0, peers := .compact [127, 0, 0, 1, 26, 225, 9] }).peers.length = 1 ∧
    (parse_announce_response { interval := 0, peers := .compact [127, 0, 0, 1, 26, 225, 9] }).peers[0]? =
      some (Peer.mk (IpAddr.v4 127 0 0 1) 6881) :=
  ⟨(C10_compact_peers 0 [127, 0, 0, 1, 26, 225, 9]).1,
   ((C10_compact_peers 0 [127, 0, 0, 1, 26, 225, 9]).2 0 (by decide)).trans (by decide)⟩

/-- C5: the handshake rejection paths of `do_handshake` produce ad-hoc
`anyhow!` message errors, not the distinct `TorrentError` handshake kinds
declared in `src/torrent/mod.rs`: a remote whose first byte is 18 fails
with the formatted invalid-protocol-length message (and not
`HandshakeInvalidProtocol`), and a remote with a well-formed frame but a
different 20-byte info-hash fails with the formatted mismatch message (and
not `HandshakeInfoHashMismatch`). -/
theorem C5_handshake_error_kinds :
    do_handshake_recv [18] (List.replicate 20 1) =
      .error (.adhocInvalidProtocolLen 18) ∧
    do_handshake_recv [18] (List.replicate 20 1) ≠
      .error (.torrentKind TorrentError.handshakeInvalidProtocol) ∧
    do_handshake_recv
        (19 :: protocolBytes ++ List.replicate 8 0 ++ List.replicate 20 2 ++
          List.replicate 20 3)
        (List.replicate 20 1) =
      .error (.adhocInfoHashMismatch (List.replicate 20 2) (List.replicate 20 1)) ∧
    do_handshake_recv
        (19 :: protocolBytes ++ List.replicate 8 0 ++ List.replicate 20 2 ++
          List.replicate 20 3)
        (List.replicate 20 1) ≠
      .error (.torrentKind TorrentError.handshakeInfoHashMismatch) := by
  refine ⟨rfl, by decide, by decide, by decide⟩

/-- C6: the `info_hash` (and `peer_id`) value appended to the announce URL
is not the byte-for-byte percent-encoding of the raw 20 bytes:
`Client::announce` feeds the `url_encode` output through
`query_pairs_mut().extend_pairs(..)`, which percent-encodes again, turning
every `%` into `%25`.  For the all-zero info-hash the URL carries
`%2500` twenty times where the claim requires `%00` twenty times. -/
theorem C6_announce_param_double_encoded :
    announce_param_value (List.replicate 20 0) ≠ url_encode (List.replicate 20 0) ∧
    url_encode (List.replicate 20 0) = (List.replicate 20 [37, 48, 48]).flatten ∧
    announce_param_value (List.replicate 20 0) =
      (List.replicate 20 [37, 50, 53, 48, 48]).flatten := by
  refine ⟨by decide, by decide, by decide⟩

/-- The minimal valid info dictionary used in the creation-date and
info-hash examples: name `"f"`, piece length 1, empty `pieces`. -/
def exampleInfoPairs : List (List Nat × BencodeValue) :=
  [(nameKey, .str [102]), (pieceLengthKey, .int 1), (piecesKey, .str [])]

/-- A root dictionary carrying the BEP3 key `"creation date"` with a
negative timestamp. -/
def c7RootDateNeg : List (List Nat × BencodeValue) :=
  [(announceKey, .str [97]), (creationDateKey, .int (-5)), (infoKey, .dict exampleInfoPairs)]

/-- The same root dictionary with a positive `"creation date"`. -/
def c7RootDatePos : List (List Nat × BencodeValue) :=
  [(announceKey, .str [97]), (creationDateKey, .int 1700000000),
   (infoKey, .dict exampleInfoPairs)]

/-- The same root dictionary under the misspelled key `"creation data"`
that the source actually looks up. -/
def c7RootDataNeg : List (List Nat × BencodeValue) :=
  [(announceKey, .str [97]), (creationDataKey, .int (-5)), (infoKey, .dict exampleInfoPairs)]

/-- C7: `TorrentFile::parse` looks the creation timestamp up under the
misspelled key `"creation data"`, so the real `creation date` field is
ignored: a root dictionary with a negative `creation date` parses
successfully with `creation_date = None` instead of failing with the
date-parse error, a positive `creation date` is not extracted either, and
only the misspelled key triggers the documented behaviour (negative value
⇒ `DateParseError`). -/
theorem C7_creation_date_key_mismatch :
    (TorrentFile.parse (.dict c7RootDateNeg)).map TorrentFile.creation_date = .ok none ∧
    (TorrentFile.parse (.dict c7RootDatePos)).map TorrentFile.creation_date = .ok none ∧
    (TorrentFile.parse (.dict c7RootDataNeg)).map TorrentFile.creation_date =
      .error TorrentError.dateParseError := by
  refine ⟨rfl, rfl, rfl⟩

theorem read_until_append {delim : Nat} :
    ∀ (pre rest : List Nat), delim ∉ pre →
      read_until delim (pre ++ delim :: rest) = .ok (pre, rest) := by
  intro pre
  induction pre with
  | nil => intro rest _; simp [read_until]
  | cons b t ih =>
    intro rest h
    simp only [List.mem_cons, not_or] at h
    have hb : ¬ b = delim := fun he => h.1 he.symm
    have ht := ih rest h.2
    simp only [List.cons_append]
    rw [read_until.eq_def]
    dsimp only
    rw [if_neg hb, ht]

theorem isValidUtf8_of_ascii : ∀ bs : List Nat, (∀ b ∈ bs, b ≤ 127) →
    isValidUtf8 bs = true := by
  intro bs
  induction bs with
  | nil => intro _; rfl
  | cons b t ih =>
    intro h
    have hb : b ≤ 127 := h b (List.mem_cons_self _ _)
    show utf8Scan 0 128 191 (b :: t) = true
    simp only [utf8Scan, if_pos hb]
    exact ih (fun x hx => h x (List.mem_cons_of_mem _ hx))

theorem read_until_str_append {delim : Nat} (pre rest : List Nat) (h1 : delim ∉ pre)
    (h2 : ∀ b ∈ pre, b ≤ 127) :
    read_until_str delim (pre ++ delim :: rest) = .ok (pre, rest) := by
  simp only [read_until_str, read_until_append pre rest h1, isValidUtf8_of_ascii pre h2,
    if_pos]

theorem digit_bounds {ds : List Nat} (h : ds.all isDigitByte = true) :
    ∀ b ∈ ds, 48 ≤ b ∧ b ≤ 57 := by
  intro b hb
  have := List.all_eq_true.mp h b hb
  simp only [isDigitByte, Bool.and_eq_true, decide_eq_true_eq] at this
  exact this

/-- C8: `decode_integer` rejects (as `InvalidInteger`) the empty digit
string, `-0`, a multi-character digit string with a leading zero, and
values outside signed 64-bit; otherwise it returns the parsed value.  The
digit string is quantified as an optional `-` sign followed by decimal
digits, the value being the signed decimal value of those digits.  The
listed concrete cases `i03e`, `i-0e`, `ie`, `i0e`, `i-42e` behave as the
claim states. -/
theorem C8_decode_integer :
    (∀ (neg : Bool) (ds rest : List Nat), ds.all isDigitByte = true →
      decode_integer (105 :: (if neg then 45 :: ds else ds) ++ 101 :: rest) =
        (if ds = [] ∨ (neg = true ∧ ds = [48]) ∨
            (neg = false ∧ 1 < ds.length ∧ ds.head? = some 48) ∨
            ¬(-(2 ^ 63) ≤ (if neg then -(Int.ofNat (digitsVal ds)) else Int.ofNat (digitsVal ds)) ∧
              (if neg then -(Int.ofNat (digitsVal ds)) else Int.ofNat (digitsVal ds)) < 2 ^ 63)
         then .error .invalidInteger
         else .ok ((if neg then -(Int.ofNat (digitsVal ds)) else Int.ofNat (digitsVal ds)),
            rest))) ∧
    decode_integer [105, 48, 51, 101] = .error .invalidInteger ∧
    decode_integer [105, 45, 48, 101] = .error .invalidInteger ∧
    decode_integer [105, 101] = .error .invalidInteger ∧
    decode_integer [105, 48, 101] = .ok (0, []) ∧
    decode_integer [105, 45, 52, 50, 101] = .ok (-42, []) := by
  refine ⟨?_, by decide, by decide, by decide, by decide, by decide⟩
  intro neg ds rest hdig
  have hbounds := digit_bounds hdig
  have hb45 : ∀ b ∈ (if neg then 45 :: ds else ds), b = 45 ∨ (48 ≤ b ∧ b ≤ 57) := by
    intro b hb
    cases neg with
    | false => exact Or.inr (hbounds b (by simpa using hb))
    | true =>
      rcases List.mem_cons.mp (by simpa using hb) with hc | hc
      · exact Or.inl hc
      · exact Or.inr (hbounds b hc)
  have h127 : ∀ b ∈ (if neg then 45 :: ds else ds), b ≤ 127 := by
    intro b hb
    rcases hb45 b hb with hc | hc <;> omega
  have h101 : (101 : Nat) ∉ (if neg then 45 :: ds else ds) := by
    intro hb
    rcases hb45 101 hb with hc | hc <;> omega
  rw [decode_integer.eq_def]
  simp only [List.cons_append]
  rw [if_neg (by simp : ¬ (105 : Nat) ≠ 105), read_until_str_append _ rest h101 h127]
  cases neg with
  | false =>
    dsimp only
    by_cases hempty : ds = []
    · subst hempty
      simp [parseI64]
    · by_cases hlead : 1 < ds.length ∧ ds.head? = some 48
      · simp [hlead, hempty]
      · have hne : ds ≠ [45, 48] := by
          intro he
          have := (hbounds 45 (by rw [he]; exact List.mem_cons_self _ _)).1
          omega
        obtain ⟨d0, ds', rfl⟩ : ∃ d0 ds', ds = d0 :: ds' := by
          cases ds with
          | nil => exact absurd rfl hempty
          | cons a l => exact ⟨a, l, rfl⟩
        have hd0 := hbounds d0 (List.mem_cons_self _ _)
        have h43 : ¬ ((d0 :: ds').head? = some 43) := by simp; omega
        have h45 : ¬ ((d0 :: ds').head? = some 45) := by simp; omega
        have hd43 : ¬ d0 = 43 := by omega
        have hd45 : ¬ d0 = 45 := by omega
        have hlead2 : ¬ (0 < ds'.length ∧ d0 = 48) := by simpa using hlead
        have hdig2 : ∀ x ∈ d0 :: ds', isDigitByte x = true := List.all_eq_true.mp hdig
        by_cases hrange : -(2 ^ 63) ≤ ((digitsVal (d0 :: ds') : Int)) ∧
            ((digitsVal (d0 :: ds') : Int)) < 2 ^ 63
        · simp [parseI64, h43, h45, hd43, hd45, hdig2, hrange, hlead2, hempty, hne]
          split_ifs <;> simp_all <;> omega
        · simp [parseI64, h43, h45, hd43, hd45, hdig2, hrange, hlead2, hempty, hne]
          split_ifs <;> simp_all <;> omega
  | true =>
    dsimp only
    by_cases hds48 : ds = [48]
    · subst hds48
      simp
    · have hcons : ¬ (45 :: ds = [45, 48]) := by
        intro he
        exact hds48 (by simpa using he)
      by_cases hempty : ds = []
      · subst hempty
        simp [parseI64, hcons]
      · have hdig2 : ∀ x ∈ ds, isDigitByte x = true := List.all_eq_true.mp hdig
        by_cases hrange : -(2 ^ 63) ≤ -((digitsVal ds : Int)) ∧
            -((digitsVal ds : Int)) < 2 ^ 63
        · simp [parseI64, hdig2, hrange, hempty, hcons, hds48]
          split_ifs <;> simp_all <;> omega
        · simp [parseI64, hdig2, hrange, hempty, hcons, hds48]
          split_ifs <;> simp_all <;> omega

/-- Witness for C8: the general clause instantiated at `i-42e` (yielding
−42) and at `i0e` (yielding 0). -/
theorem C8_decode_integer_witness :
    decode_integer [105, 45, 52, 50, 101] = .ok (-42, []) ∧
    decode_integer [105, 48, 101] = .ok (0, []) :=
  ⟨(C8_decode_integer.1 true [52, 50] [] (by decide)).trans (by decide),
   (C8_decode_integer.1 false [48] [] (by decide)).trans (by decide)⟩

mutual

/-- Rust's derived `PartialEq` on `BencodeValue`: structural equality with
`HashMap` equality at dictionaries (same size, and every key of the first
maps to an equal value in the second). -/
def bequiv : BencodeValue → BencodeValue → Bool
  | .str a, .str b => decide (a = b)
  | .int a, .int b => decide (a = b)
  | .list l1, .list l2 => bequivL l1 l2
  | .dict d1, .dict d2 => decide (d1.length = d2.length) && bequivP d1 d2
  | _, _ => false

/-- Pointwise `bequiv` on lists (Rust's `Vec` equality). -/
def bequivL : List BencodeValue → List BencodeValue → Bool
  | [], [] => true
  | v :: t, w :: u => bequiv v w && bequivL t u
  | _, _ => false

/-- Every entry of the first map is matched by the second (the element
check of Rust's `HashMap` equality). -/
def bequivP : List (List Nat × BencodeValue) → List (List Nat × BencodeValue) → Bool
  | [], _ => true
  | (k, v) :: t, d2 =>
    (match lookupA k d2 with
     | some w => bequiv v w
     | none => false) && bequivP t d2

end

mutual

/-- The invariants every value the decoder produces (and every value
representable in the Rust types) satisfies: dictionary keys unique (it is
a `HashMap`), byte-string and key lengths within `usize`, integers within
`i64`. -/
def wfB : BencodeValue → Bool
  | .str s => decide (s.length < 2 ^ 64)
  | .int i => decide (-(2 ^ 63) ≤ i ∧ i < 2 ^ 63)
  | .list l => wfL l
  | .dict d =>
    decide ((d.map Prod.fst).Nodup) &&
      (d.map Prod.fst).all (fun k => decide (k.length < 2 ^ 64)) && wfP d

/-- `wfB` on every member of a list. -/
def wfL : List BencodeValue → Bool
  | [] => true
  | v :: t => wfB v && wfL t

/-- `wfB` on every value of an association list. -/
def wfP : List (List Nat × BencodeValue) → Bool
  | [] => true
  | (_, v) :: t => wfB v && wfP t

end

theorem wfP_mem {k : List Nat} {v : BencodeValue} :
    ∀ {d : List (List Nat × BencodeValue)}, wfP d = true → (k, v) ∈ d → wfB v = true := by
  intro d
  induction d with
  | nil => intro _ h; cases h
  | cons p t ih =>
    intro hw h
    rcases p with ⟨k1, v1⟩
    simp only [wfP, Bool.and_eq_true] at hw
    rcases List.mem_cons.mp h with h | h
    · cases h
      exact hw.1
    · exact ih hw.2 h

theorem bequivP_lookup {k : List Nat} {v : BencodeValue} :
    ∀ {d1 d2 : List (List Nat × BencodeValue)}, bequivP d1 d2 = true → (k, v) ∈ d1 →
      ∃ w, lookupA k d2 = some w ∧ bequiv v w = true := by
  intro d1 d2
  induction d1 with
  | nil => intro _ h; cases h
  | cons p t ih =>
    intro hP h
    rcases p with ⟨k1, v1⟩
    simp only [bequivP, Bool.and_eq_true] at hP
    rcases List.mem_cons.mp h with h | h
    · rw [Prod.mk.injEq] at h
      rcases h with ⟨h1, h2⟩
      subst h1
      subst h2
      rcases hl : lookupA k d2 with _ | w
      · rw [hl] at hP
        exact absurd hP.1 (by simp)
      · rw [hl] at hP
        exact ⟨w, rfl, hP.1⟩
    · exact ih hP.2 h

theorem encode_eq_of_bequiv :
    ∀ (n : Nat) (v1 v2 : BencodeValue), bsize v1 ≤ n → wfB v1 = true → wfB v2 = true →
      bequiv v1 v2 = true → encode v1 = encode v2 := by
  intro n
  induction n with
  | zero =>
    intro v1 _ h _ _ _
    exact absurd h (by have := bsize_pos v1; omega)
  | succ n ih =>
    intro v1 v2 hn hw1 hw2 heq
    cases v1 with
    | str a =>
      cases v2 with
      | str b =>
        have : a = b := by simpa [bequiv] using heq
        rw [this]
      | int b => simp [bequiv] at heq
      | list l => simp [bequiv] at heq
      | dict d => simp [bequiv] at heq
    | int a =>
      cases v2 with
      | str b => simp [bequiv] at heq
      | int b =>
        have : a = b := by simpa [bequiv] using heq
        rw [this]
      | list l => simp [bequiv] at heq
      | dict d => simp [bequiv] at heq
    | list l1 =>
      cases v2 with
      | str b => simp [bequiv] at heq
      | int b => simp [bequiv] at heq
      | dict d => simp [bequiv] at heq
      | list l2 =>
        have hL : bequivL l1 l2 = true := by simpa [bequiv] using heq
        have hn' : bsizeL l1 ≤ n := by
          have hb : bsize (BencodeValue.list l1) = 1 + bsizeL l1 := rfl
          omega
        have hw1' : wfL l1 = true := by simpa [wfB] using hw1
        have hw2' : wfL l2 = true := by simpa [wfB] using hw2
        rw [encode_list_def, encode_list_def]
        have aux : ∀ (t : List BencodeValue), bsizeL t ≤ n → wfL t = true →
            ∀ (u : List BencodeValue), wfL u = true → bequivL t u = true →
              t.map encode = u.map encode := by
          intro t
          induction t with
          | nil =>
            intro _ _ u _ hLtu
            cases u with
            | nil => rfl
            | cons y u1 => simp [bequivL] at hLtu
          | cons x t1 iht =>
            intro hsz hw u hwu hLtu
            cases u with
            | nil => simp [bequivL] at hLtu
            | cons y u1 =>
              simp only [bequivL, Bool.and_eq_true] at hLtu
              simp only [wfL, Bool.and_eq_true] at hw hwu
              have hszx : bsize x + bsizeL t1 + 1 ≤ n := by
                simpa [bsizeL] using hsz
              simp only [List.map_cons, List.cons.injEq]
              exact ⟨ih x y (by have := bsize_pos x; omega) hw.1 hwu.1 hLtu.1,
                iht (by omega) hw.2 u1 hwu.2 hLtu.2⟩
        rw [aux l1 hn' hw1' l2 hw2' hL]
    | dict d1 =>
      cases v2 with
      | str b => simp [bequiv] at heq
      | int b => simp [bequiv] at heq
      | list l => simp [bequiv] at heq
      | dict d2 =>
        have heq2 : d1.length = d2.length ∧ bequivP d1 d2 = true := by
          simpa [bequiv] using heq
        rcases heq2 with ⟨hlen, hP⟩
        have hnd1 : (d1.map Prod.fst).Nodup := by
          have := hw1
          simp only [wfB, Bool.and_eq_true, decide_eq_true_eq] at this
          exact this.1.1
        have hnd2 : (d2.map Prod.fst).Nodup := by
          have := hw2
          simp only [wfB, Bool.and_eq_true, decide_eq_true_eq] at this
          exact this.1.1
        have hwp1 : wfP d1 = true := by
          have := hw1
          simp only [wfB, Bool.and_eq_true] at this
          exact this.2
        have hwp2 : wfP d2 = true := by
          have := hw2
          simp only [wfB, Bool.and_eq_true] at this
          exact this.2
        have hsub : (d1.map Prod.fst) ⊆ (d2.map Prod.fst) := by
          intro k hk
          rcases List.mem_map.mp hk with ⟨⟨k0, v0⟩, hm, hk0⟩
          cases hk0
          rcases bequivP_lookup hP hm with ⟨w, hw, _⟩
          exact List.mem_map.mpr ⟨(k0, w), lookupA_mem hw, rfl⟩
        have hperm : (d1.map Prod.fst).Perm (d2.map Prod.fst) :=
          (hnd1.subperm hsub).perm_of_length_le (by simp [hlen])
        rw [encode_dict_def, encode_dict_def,
          show sortKeys (d2.map Prod.fst) = sortKeys (d1.map Prod.fst) from
            (sortKeys_congr hperm).symm]
        congr 2
        refine congrArg List.flatten (List.map_congr_left ?_)
        intro k hk
        have hkmem : k ∈ d1.map Prod.fst := ((sortKeys_perm _).mem_iff).mp hk
        rcases lookupA_isSome_of_mem hkmem with ⟨w1, hw1l⟩
        rcases bequivP_lookup hP (lookupA_mem hw1l) with ⟨w2, hw2l, hbw⟩
        simp only [hw1l, hw2l]
        have hbsz : bsize w1 < 1 + bsizeP d1 := bsizeP_of_mem (lookupA_mem hw1l)
        have hbd : bsize (BencodeValue.dict d1) = 1 + bsizeP d1 := rfl
        rw [ih w1 w2 (by omega) (wfP_mem hwp1 (lookupA_mem hw1l))
          (wfP_mem hwp2 (lookupA_mem hw2l)) hbw]

theorem removeAssoc_fst_eq_lookupA (k : List Nat) :
    ∀ d : List (List Nat × BencodeValue), (removeAssoc k d).1 = lookupA k d := by
  intro d
  induction d with
  | nil => rfl
  | cons p t ih =>
    rcases p with ⟨k1, v1⟩
    by_cases hk : k1 = k
    · simp [removeAssoc, lookupA, hk]
    · simp [removeAssoc, lookupA, hk, ih]

theorem lookupA_removeAssoc_ne {k k' : List Nat} (hne : k ≠ k') :
    ∀ d : List (List Nat × BencodeValue),
      lookupA k' (removeAssoc k d).2 = lookupA k' d := by
  intro d
  induction d with
  | nil => rfl
  | cons p t ih =>
    rcases p with ⟨k1, v1⟩
    by_cases hk : k1 = k
    · subst hk
      simp [removeAssoc, lookupA, hne]
    · simp [removeAssoc, lookupA, hk, ih]

theorem parse_info_hash_eq {d : List (List Nat × BencodeValue)} {t : TorrentFile}
    (h : TorrentFile.parse (.dict d) = .ok t) :
    ∃ m, lookupA infoKey d = some (.dict m) ∧ t.info_hash = calculate_info_hash m := by
  rw [TorrentFile.parse.eq_def] at h
  dsimp only at h
  rcases hra : (removeAssoc announceKey d).1 with _ | av
  · rw [hra] at h
    simp at h
  rw [hra] at h
  cases av with
  | int i => simp at h
  | list l => simp at h
  | dict dd => simp at h
  | str s =>
    by_cases hu : isValidUtf8 s
    case neg => simp [hu] at h
    simp only [hu, if_true, if_pos] at h
    rcases hri : (removeAssoc infoKey (removeAssoc announceKey d).2).1 with _ | iv
    · rw [hri] at h
      simp at h
    rw [hri] at h
    cases iv with
    | str s2 => simp at h
    | int i => simp at h
    | list l => simp at h
    | dict m =>
      dsimp only at h
      have hkey : lookupA infoKey d = some (.dict m) := by
        rw [← removeAssoc_fst_eq_lookupA, ← hri,
          removeAssoc_fst_eq_lookupA, removeAssoc_fst_eq_lookupA,
          lookupA_removeAssoc_ne (by decide)]
      rcases hpi : parse_info_dict (.dict m) with e | info
      · rw [hpi] at h
        simp at h
      rw [hpi] at h
      dsimp only at h
      refine ⟨m, hkey, ?_⟩
      rcases hral : (removeAssoc announceListKey
          (removeAssoc infoKey (removeAssoc announceKey d).2).2).1 with _ | alv
      next =>
        rw [hral] at h
        dsimp only at h
        rcases hcd : (removeAssoc creationDataKey (removeAssoc announceListKey
            (removeAssoc infoKey (removeAssoc announceKey d).2).2).2).1 with _ | cv
        next =>
          rw [hcd] at h
          dsimp only at h
          rcases hpp : parse_pieces info.pieces with e | ph
          · rw [hpp] at h
            simp at h
          rw [hpp] at h
          dsimp only at h
          simp only [Except.ok.injEq] at h
          rw [← h]
        next =>
          rw [hcd] at h
          cases cv with
          | str s2 => simp at h
          | list l => simp at h
          | dict dd => simp at h
          | int ts =>
            dsimp only at h
            by_cases hts : ts < 0
            · simp [hts] at h
            rw [if_neg hts] at h
            dsimp only at h
            rcases hpp : parse_pieces info.pieces with e | ph
            · rw [hpp] at h
              simp at h
            rw [hpp] at h
            dsimp only at h
            simp only [Except.ok.injEq] at h
            rw [← h]
      next =>
        rw [hral] at h
        dsimp only at h
        rcases hpal : parse_announce_list alv with e | al
        · rw [hpal] at h
          simp at h
        rw [hpal] at h
        dsimp only at h
        rcases hcd : (removeAssoc creationDataKey (removeAssoc announceListKey
            (removeAssoc infoKey (removeAssoc announceKey d).2).2).2).1 with _ | cv
        next =>
          rw [hcd] at h
          dsimp only at h
          rcases hpp : parse_pieces info.pieces with e | ph
          · rw [hpp] at h
            simp at h
          rw [hpp] at h
          dsimp only at h
          simp only [Except.ok.injEq] at h
          rw [← h]
        next =>
          rw [hcd] at h
          cases cv with
          | str s2 => simp at h
          | list l => simp at h
          | dict dd => simp at h
          | int ts =>
            dsimp only at h
            by_cases hts : ts < 0
            · simp [hts] at h
            rw [if_neg hts] at h
            dsimp only at h
            rcases hpp : parse_pieces info.pieces with e | ph
            · rw [hpp] at h
              simp at h
            rw [hpp] at h
            dsimp only at h
            simp only [Except.ok.injEq] at h
            rw [← h]

/-- C1: the info-hash computed by `TorrentFile::parse` depends only on the
`info` dictionary as a map: whenever two root dictionaries parse
successfully and their `info` entries are equal as `HashMap`s — which is
the case both for two runs on byte-identical input (where only the hash
map's iteration order may differ) and for inputs differing only in root
fields outside `info` — the resulting 20-byte info-hashes coincide. -/
theorem C1_info_hash_stability (d1 d2 : List (List Nat × BencodeValue))
    (t1 t2 : TorrentFile) (v1 v2 : BencodeValue)
    (h1 : TorrentFile.parse (.dict d1) = .ok t1)
    (h2 : TorrentFile.parse (.dict d2) = .ok t2)
    (hl1 : lookupA infoKey d1 = some v1)
    (hl2 : lookupA infoKey d2 = some v2)
    (hw1 : wfB v1 = true) (hw2 : wfB v2 = true)
    (heq : bequiv v1 v2 = true) :
    t1.info_hash = t2.info_hash := by
  rcases parse_info_hash_eq h1 with ⟨m1, hk1, hh1⟩
  rcases parse_info_hash_eq h2 with ⟨m2, hk2, hh2⟩
  rw [hl1] at hk1
  rw [hl2] at hk2
  have hv1 : v1 = .dict m1 := Option.some.inj hk1
  have hv2 : v2 = .dict m2 := Option.some.inj hk2
  subst hv1
  subst hv2
  rw [hh1, hh2]
  unfold calculate_info_hash
  exact congrArg sha1 (encode_eq_of_bequiv (bsize (.dict m1)) _ _ le_rfl hw1 hw2 heq)

/-- First example root dictionary for the C1 witness: comment `"x"`, info
entries in one order. -/
def c1Root1 : List (List Nat × BencodeValue) :=
  [(announceKey, .str [97]), (commentKey, .str [120]), (infoKey, .dict exampleInfoPairs)]

/-- Second example root dictionary: a different comment (`"y"`) and the
same info entries in a different iteration order. -/
def c1Root2 : List (List Nat × BencodeValue) :=
  [(announceKey, .str [97]), (commentKey, .str [121]),
   (infoKey, .dict [(piecesKey, .str []), (nameKey, .str [102]), (pieceLengthKey, .int 1)])]

/-- The parse result of `c1Root1` (the 20-byte info-hash is SHA-1 of
`d4:name1:f12:piece lengthi1e6:pieces0:e`). -/
def c1Torrent1 : TorrentFile :=
  { announce := [97], announce_list := [], creation_date := none, comment := [120],
    created_by := [], encoding := [],
    info := { piece_length := 1, pieces := [], private_flag := false, name := [102],
              length := none, files := [], is_directory := false },
    info_hash := [50, 85, 165, 158, 118, 90, 184, 180, 88, 107, 126, 238, 174, 127,
      161, 112, 212, 109, 210, 31],
    pieces_hash := [] }

/-- The parse result of `c1Root2`. -/
def c1Torrent2 : TorrentFile :=
  { c1Torrent1 with comment := [121] }

/-- Witness for C1: the two example roots differ in `comment` and in the
iteration order of the info entries, both parse, and the theorem yields
equal info-hashes. -/
theorem C1_info_hash_stability_witness :
    TorrentFile.parse (.dict c1Root1) = .ok c1Torrent1 ∧
    TorrentFile.parse (.dict c1Root2) = .ok c1Torrent2 ∧
    c1Torrent1.info_hash = c1Torrent2.info_hash :=
  ⟨rfl, rfl,
   C1_info_hash_stability c1Root1 c1Root2 c1Torrent1 c1Torrent2 _ _ rfl rfl rfl rfl
     (by decide) (by decide) (by decide)⟩

theorem natDigitsF_eq : ∀ (f n g : Nat), n < f → n < g → natDigitsF f n = natDigitsF g n := by
  intro f
  induction f with
  | zero => intro n g h; omega
  | succ f ih =>
    intro n g hf hg
    rcases g with _ | g
    · omega
    by_cases h10 : n < 10
    · simp [natDigitsF, h10]
    · simp only [natDigitsF, if_neg h10]
      congr 1
      exact ih (n / 10) g (by omega) (by omega)

theorem natDigits_eq (n : Nat) :
    natDigits n = if n < 10 then [48 + n] else natDigits (n / 10) ++ [48 + n % 10] := by
  show natDigitsF (n + 1) n = _
  by_cases h10 : n < 10
  · simp [natDigitsF, h10]
  · simp only [natDigitsF, if_neg h10]
    congr 1
    exact natDigitsF_eq n (n / 10) (n / 10 + 1) (by omega) (by omega)

theorem natDigits_ne_nil (n : Nat) : natDigits n ≠ [] := by
  rw [natDigits_eq]
  by_cases h10 : n < 10 <;> simp [h10]

theorem natDigits_bounds : ∀ (n : Nat), ∀ b ∈ natDigits n, 48 ≤ b ∧ b ≤ 57 := by
  intro n
  induction n using Nat.strong_induction_on with
  | _ n ih =>
    intro b hb
    rw [natDigits_eq] at hb
    by_cases h10 : n < 10
    · rw [if_pos h10] at hb
      simp at hb
      omega
    · rw [if_neg h10] at hb
      rcases List.mem_append.mp hb with h | h
      · exact ih (n / 10) (by omega) b h
      · simp at h
        have : n % 10 < 10 := Nat.mod_lt _ (by omega)
        omega

theorem natDigits_head_ne_48 : ∀ (n : Nat), n ≠ 0 → (natDigits n).head? ≠ some 48 := by
  intro n
  induction n using Nat.strong_induction_on with
  | _ n ih =>
    intro hn
    rw [natDigits_eq]
    by_cases h10 : n < 10
    · rw [if_pos h10]
      simp
      omega
    · rw [if_neg h10]
      rcases he : natDigits (n / 10) with _ | ⟨d, dt⟩
      · exact absurd he (natDigits_ne_nil _)
      · have := ih (n / 10) (by omega) (by omega)
        rw [he] at this
        simpa using this

theorem digitsVal_append_singleton (xs : List Nat) (d : Nat) :
    digitsVal (xs ++ [d]) = digitsVal xs * 10 + (d - 48) := by
  simp [digitsVal, List.foldl_append]

theorem digitsVal_natDigits : ∀ n : Nat, digitsVal (natDigits n) = n := by
  intro n
  induction n using Nat.strong_induction_on with
  | _ n ih =>
    rw [natDigits_eq]
    by_cases h10 : n < 10
    · rw [if_pos h10]
      simp [digitsVal]
    · rw [if_neg h10]
      rw [digitsVal_append_singleton, ih (n / 10) (by omega)]
      omega

theorem natDigits_all_digits (n : Nat) : (natDigits n).all isDigitByte = true := by
  refine List.all_eq_true.mpr ?_
  intro b hb
  have := natDigits_bounds n b hb
  simp [isDigitByte]
  omega

theorem parseUsize_natDigits {n : Nat} (h : n < 2 ^ 64) :
    parseUsize (natDigits n) = some n := by
  rcases he : natDigits n with _ | ⟨d, dt⟩
  · exact absurd he (natDigits_ne_nil _)
  have hd : 48 ≤ d ∧ d ≤ 57 := natDigits_bounds n d (by rw [he]; exact List.mem_cons_self _ _)
  have hall := natDigits_all_digits n
  rw [he] at hall
  have hval := digitsVal_natDigits n
  rw [he] at hval
  have hd43 : ¬ d = 43 := by omega
  simp [parseUsize, hd43, hall, hval]
  omega

theorem readN_append : ∀ (s r : List Nat), readN s.length (s ++ r) = .ok (s, r) := by
  intro s
  induction s with
  | nil => intro r; rfl
  | cons b t ih =>
    intro r
    simp only [List.length_cons, List.cons_append, readN, List.append_eq, ih r]

theorem decode_string_encode {s : List Nat} (h : s.length < 2 ^ 64) (r : List Nat) :
    decode_string (encode_string s ++ r) = .ok (s, r) := by
  have hassoc : encode_string s ++ r = natDigits s.length ++ 58 :: (s ++ r) := by
    simp [encode_string]
  rw [hassoc]
  have h58 : (58 : Nat) ∉ natDigits s.length := by
    intro hm
    have := natDigits_bounds s.length 58 hm
    omega
  have h127 : ∀ b ∈ natDigits s.length, b ≤ 127 := by
    intro b hb
    have := natDigits_bounds s.length b hb
    omega
  simp only [decode_string, read_until_str_append _ _ h58 h127, parseUsize_natDigits h]
  exact readN_append s r

theorem parseI64_intDigits {i : Int} (h1 : -(2 ^ 63) ≤ i) (h2 : i < 2 ^ 63) :
    parseI64 (intDigits i) = some i := by
  by_cases hneg : i < 0
  · have hid : intDigits i = 45 :: natDigits (-i).toNat := by simp [intDigits, hneg]
    rw [hid]
    rcases he : natDigits (-i).toNat with _ | ⟨d, dt⟩
    · exact absurd he (natDigits_ne_nil _)
    have hall := natDigits_all_digits (-i).toNat
    have hval := digitsVal_natDigits (-i).toNat
    rw [he] at hall hval
    have hcast : (((-i).toNat : Int)) = -i := Int.toNat_of_nonneg (by omega)
    have hr1 : -(2 ^ 63) ≤ -((((-i).toNat : Int))) := by omega
    have hr2 : -((((-i).toNat : Int))) < 2 ^ 63 := by omega
    simp [parseI64, hall, hval, hcast, hr1, hr2]
    omega
  · have hid : intDigits i = natDigits i.toNat := by simp [intDigits, hneg]
    rw [hid]
    rcases he : natDigits i.toNat with _ | ⟨d, dt⟩
    · exact absurd he (natDigits_ne_nil _)
    have hd : 48 ≤ d ∧ d ≤ 57 :=
      natDigits_bounds i.toNat d (by rw [he]; exact List.mem_cons_self _ _)
    have hall := natDigits_all_digits i.toNat
    have hval := digitsVal_natDigits i.toNat
    rw [he] at hall hval
    have hd43 : ¬ d = 43 := by omega
    have hd45 : ¬ d = 45 := by omega
    have hcast : ((i.toNat : Int)) = i := Int.toNat_of_nonneg (by omega)
    simp [parseI64, hd43, hd45, hall, hval, hcast, h1, h2]
    omega

theorem intDigits_mem_bounds {i : Int} : ∀ b ∈ intDigits i, b = 45 ∨ (48 ≤ b ∧ b ≤ 57) := by
  intro b hb
  by_cases hneg : i < 0
  · simp only [intDigits, if_pos hneg, List.mem_cons] at hb
    rcases hb with h | h
    · exact Or.inl h
    · exact Or.inr (natDigits_bounds _ b h)
  · simp only [intDigits, if_neg hneg] at hb
    exact Or.inr (natDigits_bounds _ b hb)

theorem decode_integer_encode {i : Int} (h1 : -(2 ^ 63) ≤ i) (h2 : i < 2 ^ 63)
    (r : List Nat) : decode_integer (encode_integer i ++ r) = .ok (i, r) := by
  have hassoc : encode_integer i ++ r = 105 :: (intDigits i ++ 101 :: r) := by
    simp [encode_integer]
  rw [hassoc, decode_integer.eq_def]
  dsimp only
  rw [if_neg (by simp : ¬ (105 : Nat) ≠ 105)]
  rw [read_until_str_append _ r
    (by intro hm; rcases intDigits_mem_bounds 101 hm with h | h <;> omega)
    (by intro b hb; rcases intDigits_mem_bounds b hb with h | h <;> omega)]
  dsimp only
  have hlead : ¬ ((intDigits i).length > 1 ∧ (intDigits i).head? = some 48) := by
    rintro ⟨hlen, hhead⟩
    by_cases hneg : i < 0
    · rw [intDigits, if_pos hneg] at hhead
      simp at hhead
    · rw [intDigits, if_neg hneg] at hhead hlen
      have hne : i.toNat ≠ 0 := by
        intro h0
        rw [natDigits_eq, h0] at hlen
        simp at hlen
      exact natDigits_head_ne_48 i.toNat hne hhead
  have hne45 : intDigits i ≠ [45, 48] := by
    intro he
    by_cases hneg : i < 0
    · rw [intDigits, if_pos hneg] at he
      have hd : natDigits (-i).toNat = [48] := by
        injection he
      have hne : (-i).toNat ≠ 0 := by omega
      have hh := natDigits_head_ne_48 (-i).toNat hne
      rw [hd] at hh
      simp at hh
    · rw [intDigits, if_neg hneg] at he
      have h45 : (45 : Nat) ∈ natDigits i.toNat := by
        rw [he]
        exact List.mem_cons_self _ _
      have := natDigits_bounds i.toNat 45 h45
      omega
  have hnil : intDigits i ≠ [] := by
    by_cases hneg : i < 0
    · rw [intDigits, if_pos hneg]
      simp
    · rw [intDigits, if_neg hneg]
      exact natDigits_ne_nil _
  rw [if_neg hlead, if_neg hne45, if_neg hnil, parseI64_intDigits h1 h2]

/-! ## Decoder–encoder round trip (support for C3) -/

/-- The dictionary in the canonical entry order the encoder emits: keys
sorted byte-lexicographically, each paired with its value in the map. -/
def dictPairs (d : List (List Nat × BencodeValue)) : List (List Nat × BencodeValue) :=
  (sortKeys (d.map Prod.fst)).map (fun k => (k, (lookupA k d).getD (.str [])))

/-- The canonical form of a value: what the decoder reconstructs from the
encoder's output (dictionaries in sorted key order), fuel-driven. -/
def canonF : Nat → BencodeValue → BencodeValue
  | 0, v => v
  | f + 1, v =>
    match v with
    | .str s => .str s
    | .int i => .int i
    | .list l => .list (l.map (canonF f))
    | .dict d => .dict ((dictPairs d).map (fun kv => (kv.1, canonF f kv.2)))

/-- The canonical form (fuel `bsize v` always suffices). -/
def canon (v : BencodeValue) : BencodeValue := canonF (bsize v) v

theorem dictPairs_mem {kv : List Nat × BencodeValue} :
    ∀ {d : List (List Nat × BencodeValue)}, kv ∈ dictPairs d →
      lookupA kv.1 d = some kv.2 := by
  intro d h
  rcases List.mem_map.mp h with ⟨k, hk, he⟩
  have hk2 : k ∈ d.map Prod.fst := (sortKeys_perm _).mem_iff.mp hk
  rcases lookupA_isSome_of_mem hk2 with ⟨v, hv⟩
  subst he
  simp [hv]

theorem dictPairs_fst (d : List (List Nat × BencodeValue)) :
    (dictPairs d).map Prod.fst = sortKeys (d.map Prod.fst) := by
  simp [dictPairs, List.map_map, Function.comp_def]

theorem canonF_fuel_eq : ∀ (n : Nat) (v : BencodeValue) (f g : Nat), bsize v ≤ n →
    bsize v ≤ f → bsize v ≤ g → canonF f v = canonF g v := by
  intro n
  induction n with
  | zero =>
    intro v f g h _ _
    exact absurd h (by have := bsize_pos v; omega)
  | succ n ih =>
    intro v f g hn hf hg
    have h1 := bsize_pos v
    rcases f with _ | f
    · omega
    rcases g with _ | g
    · omega
    cases v with
    | str s => simp [canonF]
    | int i => simp [canonF]
    | list l =>
      have hb : bsize (BencodeValue.list l) = 1 + bsizeL l := rfl
      rw [hb] at hn hf hg
      simp only [canonF]
      congr 1
      refine List.map_congr_left ?_
      intro x hx
      have hs : bsize x < 1 + bsizeL l := bsizeL_of_mem hx
      exact ih x f g (by omega) (by omega) (by omega)
    | dict d =>
      have hb : bsize (BencodeValue.dict d) = 1 + bsizeP d := rfl
      rw [hb] at hn hf hg
      simp only [canonF]
      congr 1
      refine List.map_congr_left ?_
      intro kv hkv
      have hs : bsize kv.2 < 1 + bsizeP d := bsizeP_of_mem (lookupA_mem (dictPairs_mem hkv))
      have := ih kv.2 f g (by omega) (by omega) (by omega)
      rw [this]

theorem canon_str (s : List Nat) : canon (.str s) = .str s := rfl

theorem canon_int (i : Int) : canon (.int i) = .int i := rfl

theorem canon_list (l : List BencodeValue) : canon (.list l) = .list (l.map canon) := by
  show canonF (bsize (.list l)) (.list l) = _
  have hb : bsize (BencodeValue.list l) = bsizeL l + 1 := by
    show 1 + bsizeL l = _
    omega
  rw [hb]
  simp only [canonF]
  congr 1
  refine List.map_congr_left ?_
  intro x hx
  have hs : bsize x < 1 + bsizeL l := bsizeL_of_mem hx
  exact canonF_fuel_eq (bsize x) x (bsizeL l) (bsize x) le_rfl (by omega) le_rfl

theorem canon_dict (d : List (List Nat × BencodeValue)) :
    canon (.dict d) = .dict ((dictPairs d).map (fun kv => (kv.1, canon kv.2))) := by
  show canonF (bsize (.dict d)) (.dict d) = _
  have hb : bsize (BencodeValue.dict d) = bsizeP d + 1 := by
    show 1 + bsizeP d = _
    omega
  rw [hb]
  simp only [canonF]
  congr 1
  refine List.map_congr_left ?_
  intro kv hkv
  have hs : bsize kv.2 < 1 + bsizeP d := bsizeP_of_mem (lookupA_mem (dictPairs_mem hkv))
  have := canonF_fuel_eq (bsize kv.2) kv.2 (bsizeP d) (bsize kv.2) le_rfl (by omega) le_rfl
  rw [this]
  rfl

theorem encode_dict_pairs_eq (d : List (List Nat × BencodeValue)) :
    encode (.dict d) =
      100 :: ((dictPairs d).map (fun kv => encode_string kv.1 ++ encode kv.2)).flatten
        ++ [101] := by
  rw [encode_dict_def]
  congr 2
  rw [dictPairs.eq_def, List.map_map]
  refine congrArg List.flatten (List.map_congr_left ?_)
  intro k hk
  have hk2 : k ∈ d.map Prod.fst := (sortKeys_perm _).mem_iff.mp hk
  rcases lookupA_isSome_of_mem hk2 with ⟨v, hv⟩
  simp [Function.comp, hv]

theorem encode_length_pos : ∀ v : BencodeValue, 1 ≤ (encode v).length := by
  intro v
  cases v with
  | str s =>
    rw [encode_str_def]
    simp [encode_string]
    omega
  | int i =>
    rw [encode_int_def]
    simp [encode_integer]
  | list l =>
    rw [encode_list_def]
    simp
  | dict d =>
    rw [encode_dict_def]
    simp

theorem encode_string_length_ge (s : List Nat) : 2 ≤ (encode_string s).length := by
  have h := List.length_pos.mpr (natDigits_ne_nil s.length)
  simp [encode_string]
  omega

theorem encode_head_ne_101 : ∀ v : BencodeValue, ∃ b t, encode v = b :: t ∧ b ≠ 101 := by
  intro v
  cases v with
  | str s =>
    rcases hnd : natDigits s.length with _ | ⟨b, ds⟩
    · exact absurd hnd (natDigits_ne_nil _)
    · refine ⟨b, ds ++ 58 :: s, ?_, ?_⟩
      · rw [encode_str_def]
        simp [encode_string, hnd]
      · have := natDigits_bounds s.length b (by rw [hnd]; exact List.mem_cons_self _ _)
        omega
  | int i =>
    refine ⟨105, intDigits i ++ [101], ?_, by omega⟩
    rw [encode_int_def]
    simp [encode_integer]
  | list l =>
    refine ⟨108, (l.map encode).flatten ++ [101], ?_, by omega⟩
    rw [encode_list_def]
    simp
  | dict d =>
    refine ⟨100, ((sortKeys (d.map Prod.fst)).map (fun k =>
      encode_string k ++
        match lookupA k d with
        | some v1 => encode v1
        | none => [])).flatten ++ [101], ?_, by omega⟩
    rw [encode_dict_def]
    simp

theorem wfP_of_forall : ∀ {qs : List (List Nat × BencodeValue)},
    (∀ kv ∈ qs, wfB kv.2 = true) → wfP qs = true := by
  intro qs
  induction qs with
  | nil => intro _; rfl
  | cons p t ih =>
    intro h
    rcases p with ⟨k, v⟩
    simp only [wfP, Bool.and_eq_true]
    exact ⟨h (k, v) (List.mem_cons_self _ _), ih (fun kv hkv => h kv (List.mem_cons_of_mem _ hkv))⟩

theorem bequivP_of_forall : ∀ {d1 d2 : List (List Nat × BencodeValue)},
    (∀ kv ∈ d1, ∃ w, lookupA kv.1 d2 = some w ∧ bequiv kv.2 w = true) →
      bequivP d1 d2 = true := by
  intro d1 d2
  induction d1 with
  | nil => intro _; rfl
  | cons p t ih =>
    intro h
    rcases p with ⟨k, v⟩
    rcases h (k, v) (List.mem_cons_self _ _) with ⟨w, hl, hb⟩
    simp only [bequivP, Bool.and_eq_true]
    rw [hl]
    exact ⟨hb, ih (fun kv hkv => h kv (List.mem_cons_of_mem _ hkv))⟩

theorem insertAssoc_not_mem {k : List Nat} {v : BencodeValue} :
    ∀ {acc : List (List Nat × BencodeValue)}, k ∉ acc.map Prod.fst →
      insertAssoc k v acc = acc ++ [(k, v)] := by
  intro acc
  induction acc with
  | nil => intro _; rfl
  | cons p t ih =>
    intro h
    rcases p with ⟨k1, v1⟩
    simp only [List.map_cons, List.mem_cons] at h
    push_neg at h
    simp only [insertAssoc]
    rw [if_neg (fun he => h.1 he.symm), ih h.2]
    simp

theorem foldl_insertAssoc (g : BencodeValue → BencodeValue) :
    ∀ (qs acc : List (List Nat × BencodeValue)), (qs.map Prod.fst).Nodup →
      (∀ k ∈ qs.map Prod.fst, k ∉ acc.map Prod.fst) →
      qs.foldl (fun a kv => insertAssoc kv.1 (g kv.2) a) acc =
        acc ++ qs.map (fun kv => (kv.1, g kv.2)) := by
  intro qs
  induction qs with
  | nil => intro acc _ _; simp
  | cons p t ih =>
    intro acc hnd hdis
    rcases p with ⟨k, v⟩
    simp only [List.map_cons, List.nodup_cons] at hnd
    simp only [List.foldl_cons]
    rw [insertAssoc_not_mem (hdis k (by simp))]
    rw [ih (acc ++ [(k, g v)]) hnd.2 ?_]
    · simp
    · intro k1 hk1
      simp only [List.map_append, List.mem_append]
      push_neg
      constructor
      · exact hdis k1 (by simp [hk1])
      · simp only [List.map_cons, List.map_nil, List.mem_singleton]
        intro he
        exact hnd.1 (by rw [← he]; exact hk1)

theorem parseUsize_lt {bs : List Nat} {n : Nat} (h : parseUsize bs = some n) :
    n < 2 ^ 64 := by
  simp only [parseUsize] at h
  split_ifs at h
  all_goals injection h with h1
  all_goals omega

theorem parseI64_range {bs : List Nat} {i : Int} (h : parseI64 bs = some i) :
    -(2 ^ 63) ≤ i ∧ i < 2 ^ 63 := by
  simp only [parseI64] at h
  split_ifs at h
  all_goals injection h with h1
  all_goals rw [← h1]
  all_goals first
    | assumption
    | (constructor <;> omega)

theorem readN_ok_length : ∀ (n : Nat) (input buf rest : List Nat),
    readN n input = .ok (buf, rest) → buf.length = n := by
  intro n
  induction n with
  | zero =>
    intro input buf rest h
    simp only [readN] at h
    injection h with h1
    injection h1 with h2 h3
    rw [← h2]
    rfl
  | succ n ih =>
    intro input buf rest h
    rcases input with _ | ⟨b, t⟩
    · simp [readN] at h
    · simp only [readN] at h
      rcases hr : readN n t with e | p
      · rw [hr] at h
        simp at h
      · rw [hr] at h
        rcases p with ⟨buf1, rest1⟩
        dsimp only at h
        injection h with h1
        injection h1 with h2 h3
        rw [← h2]
        simp [ih t buf1 rest1 hr]

theorem decode_string_length {input s r : List Nat} (h : decode_string input = .ok (s, r)) :
    s.length < 2 ^ 64 := by
  simp only [decode_string] at h
  rcases h1 : read_until_str 58 input with e | p
  · rw [h1] at h
    simp at h
  · rw [h1] at h
    rcases p with ⟨ls, rest⟩
    dsimp only at h
    rcases h2 : parseUsize ls with _ | n
    · rw [h2] at h
      simp at h
    · rw [h2] at h
      dsimp only at h
      have hl := readN_ok_length n rest s r h
      have hlt := parseUsize_lt h2
      omega

theorem decode_integer_range {input : List Nat} {i : Int} {r : List Nat}
    (h : decode_integer input = .ok (i, r)) : -(2 ^ 63) ≤ i ∧ i < 2 ^ 63 := by
  rcases input with _ | ⟨b, rest⟩
  · simp [decode_integer] at h
  · simp only [decode_integer] at h
    split at h
    next => simp at h
    next =>
      rcases h1 : read_until_str 101 rest with e | p
      · rw [h1] at h
        simp at h
      · rw [h1] at h
        rcases p with ⟨ns, rest1⟩
        dsimp only at h
        split at h
        next => simp at h
        next =>
          split at h
          next => simp at h
          next =>
            split at h
            next => simp at h
            next =>
              rcases h2 : parseI64 ns with _ | v
              · rw [h2] at h
                simp at h
              · rw [h2] at h
                dsimp only at h
                have hr := parseI64_range h2
                injection h with h3
                injection h3 with h4 h5
                rw [← h4]
                exact hr

theorem insertAssoc_fst_mem {k k1 : List Nat} {v : BencodeValue} :
    ∀ {d : List (List Nat × BencodeValue)}, k1 ∈ (insertAssoc k v d).map Prod.fst →
      k1 ∈ d.map Prod.fst ∨ k1 = k := by
  intro d
  induction d with
  | nil =>
    intro h
    simp [insertAssoc] at h
    exact Or.inr h
  | cons p t ih =>
    intro h
    rcases p with ⟨k2, v2⟩
    by_cases hk : k2 = k
    · simp only [insertAssoc, if_pos hk, List.map_cons, List.mem_cons] at h
      rcases h with h | h
      · exact Or.inr h
      · exact Or.inl (by subst hk; simp [h])
    · simp only [insertAssoc, if_neg hk, List.map_cons, List.mem_cons] at h
      rcases h with h | h
      · exact Or.inl (by simp [h])
      · rcases ih h with h | h
        · exact Or.inl (by simp [h])
        · exact Or.inr h

theorem insertAssoc_fst_nodup {k : List Nat} {v : BencodeValue} :
    ∀ {d : List (List Nat × BencodeValue)}, (d.map Prod.fst).Nodup →
      ((insertAssoc k v d).map Prod.fst).Nodup := by
  intro d
  induction d with
  | nil =>
    intro _
    simp [insertAssoc]
  | cons p t ih =>
    intro h
    rcases p with ⟨k2, v2⟩
    simp only [List.map_cons, List.nodup_cons] at h
    by_cases hk : k2 = k
    · have he : insertAssoc k v ((k2, v2) :: t) = (k, v) :: t := by
        simp [insertAssoc, hk]
      rw [he]
      simp only [List.map_cons, List.nodup_cons]
      rw [← hk]
      exact h
    · simp only [insertAssoc, if_neg hk, List.map_cons, List.nodup_cons]
      refine ⟨?_, ih h.2⟩
      intro hm
      rcases insertAssoc_fst_mem hm with hm | hm
      · exact h.1 hm
      · exact hk hm

theorem insertAssoc_wfP {k : List Nat} {v : BencodeValue} (hv : wfB v = true) :
    ∀ {d : List (List Nat × BencodeValue)}, wfP d = true →
      wfP (insertAssoc k v d) = true := by
  intro d
  induction d with
  | nil =>
    intro _
    simp [insertAssoc, wfP, hv]
  | cons p t ih =>
    intro h
    rcases p with ⟨k2, v2⟩
    simp only [wfP, Bool.and_eq_true] at h
    by_cases hk : k2 = k
    · simp only [insertAssoc, if_pos hk, wfP, Bool.and_eq_true]
      exact ⟨hv, h.2⟩
    · simp only [insertAssoc, if_neg hk, wfP, Bool.and_eq_true]
      exact ⟨h.1, ih h.2⟩

theorem insertAssoc_wf {k : List Nat} {v : BencodeValue}
    {d : List (List Nat × BencodeValue)} (hd : wfB (.dict d) = true)
    (hk : k.length < 2 ^ 64) (hv : wfB v = true) :
    wfB (.dict (insertAssoc k v d)) = true := by
  simp only [wfB, Bool.and_eq_true, decide_eq_true_eq, List.all_eq_true] at hd ⊢
  refine ⟨⟨insertAssoc_fst_nodup hd.1.1, ?_⟩, insertAssoc_wfP hv hd.2⟩
  intro k1 hk1
  rcases insertAssoc_fst_mem hk1 with h | h
  · exact hd.1.2 k1 h
  · subst h
    omega

theorem wf_dict_nil : wfB (.dict []) = true := by
  simp [wfB, wfP]

theorem bequiv_canon : ∀ (n : Nat) (v : BencodeValue), bsize v ≤ n → wfB v = true →
    bequiv v (canon v) = true := by
  intro n
  induction n with
  | zero =>
    intro v h _
    exact absurd h (by have := bsize_pos v; omega)
  | succ n ih =>
    intro v hn hwf
    cases v with
    | str s => simp [canon_str, bequiv]
    | int i => simp [canon_int, bequiv]
    | list l =>
      rw [canon_list]
      show bequivL l (l.map canon) = true
      have hb : bsize (BencodeValue.list l) = 1 + bsizeL l := rfl
      rw [hb] at hn
      have hw : wfL l = true := by simpa [wfB] using hwf
      have hle : bsizeL l ≤ n := by omega
      clear hwf hn hb
      induction l with
      | nil => rfl
      | cons x t iht =>
        simp only [wfL, Bool.and_eq_true] at hw
        have hb2 : bsizeL (x :: t) = bsize x + bsizeL t + 1 := rfl
        rw [hb2] at hle
        simp only [List.map_cons, bequivL, Bool.and_eq_true]
        exact ⟨ih x (by omega) hw.1, iht hw.2 (by omega)⟩
    | dict d =>
      rw [canon_dict]
      show (decide (d.length = ((dictPairs d).map (fun kv => (kv.1, canon kv.2))).length) &&
        bequivP d ((dictPairs d).map (fun kv => (kv.1, canon kv.2)))) = true
      have hb : bsize (BencodeValue.dict d) = 1 + bsizeP d := rfl
      rw [hb] at hn
      have hwf2 := hwf
      simp only [wfB, Bool.and_eq_true, decide_eq_true_eq] at hwf2
      have hnd : (d.map Prod.fst).Nodup := hwf2.1.1
      have hwP : wfP d = true := hwf2.2
      have hlen : ((dictPairs d).map (fun kv => (kv.1, canon kv.2))).length = d.length := by
        simp only [List.length_map, dictPairs]
        rw [(sortKeys_perm (d.map Prod.fst)).length_eq, List.length_map]
      have hpairs_nd : (((dictPairs d).map (fun kv => (kv.1, canon kv.2))).map Prod.fst).Nodup := by
        have : ((dictPairs d).map (fun kv => (kv.1, canon kv.2))).map Prod.fst =
            (dictPairs d).map Prod.fst := by
          simp [List.map_map, Function.comp_def]
        rw [this, dictPairs_fst]
        exact ((sortKeys_perm (d.map Prod.fst)).nodup_iff).mpr hnd
      rw [Bool.and_eq_true]
      refine ⟨by simp [hlen], ?_⟩
      refine bequivP_of_forall ?_
      intro kv hkv
      obtain ⟨k1, v1⟩ := kv
      refine ⟨canon v1, ?_, ?_⟩
      · have h1 : k1 ∈ List.map Prod.fst d := List.mem_map.mpr ⟨(k1, v1), hkv, rfl⟩
        have hmem : (k1, v1) ∈ dictPairs d := by
          refine List.mem_map.mpr ⟨k1, ?_, ?_⟩
          · exact ((sortKeys_perm (List.map Prod.fst d)).mem_iff).mpr h1
          · simp [lookupA_eq_of_mem_nodup hnd hkv]
        have hmem2 : (k1, canon v1) ∈ (dictPairs d).map (fun p => (p.1, canon p.2)) :=
          List.mem_map.mpr ⟨(k1, v1), hmem, rfl⟩
        exact lookupA_eq_of_mem_nodup hpairs_nd hmem2
      · have hs : bsize v1 < 1 + bsizeP d := bsizeP_of_mem hkv
        exact ih v1 (by omega) (wfP_mem hwP hkv)

theorem decode_wf_aux : ∀ f : Nat,
    (∀ input v rest, decode_next f input = some (.ok (v, rest)) → wfB v = true) ∧
    (∀ input vs rest, decode_list_items f input = some (.ok (vs, rest)) → wfL vs = true) ∧
    (∀ acc input qs rest, wfB (.dict acc) = true →
      decode_dict_pairs f acc input = some (.ok (qs, rest)) → wfB (.dict qs) = true) := by
  intro f
  induction f with
  | zero =>
    refine ⟨?_, ?_, ?_⟩
    · intro input v rest h
      simp [decode_next] at h
    · intro input vs rest h
      simp [decode_list_items] at h
    · intro acc input qs rest _ h
      simp [decode_dict_pairs] at h
  | succ f ih =>
    obtain ⟨ihP, ihQ, ihR⟩ := ih
    refine ⟨?_, ?_, ?_⟩
    · intro input v rest h
      rcases input with _ | ⟨b, t⟩
      · rw [decode_next.eq_def] at h
        dsimp only at h
        simp at h
      · rw [decode_next.eq_def] at h
        dsimp only at h
        split_ifs at h with hd hi hl hdd
        · rcases hds : decode_string (b :: t) with e | p
          · rw [hds] at h
            simp [Except.map] at h
          · rw [hds] at h
            rcases p with ⟨s, r1⟩
            simp only [Except.map] at h
            injection h with h1
            injection h1 with h2
            injection h2 with h3 h4
            rw [← h3]
            have := decode_string_length hds
            simp [wfB]
            omega
        · rcases hdi : decode_integer (b :: t) with e | p
          · rw [hdi] at h
            simp [Except.map] at h
          · rw [hdi] at h
            rcases p with ⟨i, r1⟩
            simp only [Except.map] at h
            injection h with h1
            injection h1 with h2
            injection h2 with h3 h4
            rw [← h3]
            have := decode_integer_range hdi
            simp [wfB]
            omega
        · rcases hq : decode_list_items f t with _ | res
          · rw [hq] at h
            simp at h
          · rw [hq] at h
            rcases res with e | p
            · simp at h
            · rcases p with ⟨l, r1⟩
              dsimp only at h
              injection h with h1
              injection h1 with h2
              injection h2 with h3 h4
              rw [← h3]
              show wfL l = true
              exact ihQ t l r1 hq
        · rcases hq : decode_dict_pairs f [] t with _ | res
          · rw [hq] at h
            simp at h
          · rw [hq] at h
            rcases res with e | p
            · simp at h
            · rcases p with ⟨d1, r1⟩
              dsimp only at h
              injection h with h1
              injection h1 with h2
              injection h2 with h3 h4
              rw [← h3]
              exact ihR [] t d1 r1 wf_dict_nil hq
        · simp at h
    · intro input vs rest h
      rcases input with _ | ⟨b, t⟩
      · rw [decode_list_items.eq_def] at h
        dsimp only at h
        simp at h
      · rw [decode_list_items.eq_def] at h
        dsimp only at h
        split_ifs at h with hb101
        · injection h with h1
          injection h1 with h2
          injection h2 with h3 h4
          rw [← h3]
          rfl
        · rcases hn : decode_next f (b :: t) with _ | res
          · rw [hn] at h
            simp at h
          · rw [hn] at h
            rcases res with e | p
            · simp at h
            · rcases p with ⟨item, r1⟩
              dsimp only at h
              rcases hq : decode_list_items f r1 with _ | res2
              · rw [hq] at h
                simp at h
              · rw [hq] at h
                rcases res2 with e | p2
                · simp at h
                · rcases p2 with ⟨items, r2⟩
                  dsimp only at h
                  injection h with h1
                  injection h1 with h2
                  injection h2 with h3 h4
                  rw [← h3]
                  show (wfB item && wfL items) = true
                  simp [ihP (b :: t) item r1 hn, ihQ r1 items r2 hq]
    · intro acc input qs rest hacc h
      rcases input with _ | ⟨b, t⟩
      · rw [decode_dict_pairs.eq_def] at h
        dsimp only at h
        simp at h
      · rw [decode_dict_pairs.eq_def] at h
        dsimp only at h
        split_ifs at h with hb101
        · injection h with h1
          injection h1 with h2
          injection h2 with h3 h4
          rw [← h3]
          exact hacc
        · rcases hds : decode_string (b :: t) with e | p
          · rw [hds] at h
            simp at h
          · rw [hds] at h
            rcases p with ⟨key, r1⟩
            dsimp only at h
            rcases hn : decode_next f r1 with _ | res
            · rw [hn] at h
              simp at h
            · rw [hn] at h
              rcases res with e | p2
              · simp at h
              · rcases p2 with ⟨value, r2⟩
                dsimp only at h
                refine ihR (insertAssoc key value acc) r2 qs rest ?_ h
                exact insertAssoc_wf hacc (decode_string_length hds) (ihP r1 value r2 hn)

theorem decode_encode_aux : ∀ f : Nat,
    (∀ v r, wfB v = true → (encode v).length ≤ f →
      decode_next f (encode v ++ r) = some (.ok (canon v, r))) ∧
    (∀ vs r, wfL vs = true → ((vs.map encode).flatten).length + 1 ≤ f →
      decode_list_items f ((vs.map encode).flatten ++ 101 :: r) =
        some (.ok (vs.map canon, r))) ∧
    (∀ qs acc r, wfP qs = true → (∀ kv ∈ qs, kv.1.length < 2 ^ 64) →
      ((qs.map (fun kv => encode_string kv.1 ++ encode kv.2)).flatten).length + 1 ≤ f →
      decode_dict_pairs f acc
          ((qs.map (fun kv => encode_string kv.1 ++ encode kv.2)).flatten ++ 101 :: r) =
        some (.ok (qs.foldl (fun a kv => insertAssoc kv.1 (canon kv.2) a) acc, r))) := by
  intro f
  induction f with
  | zero =>
    refine ⟨?_, ?_, ?_⟩
    · intro v r _ hlen
      have := encode_length_pos v
      omega
    · intro vs r _ hlen
      omega
    · intro qs acc r _ _ hlen
      omega
  | succ f ih =>
    obtain ⟨ihP, ihQ, ihR⟩ := ih
    refine ⟨?_, ?_, ?_⟩
    · intro v r hwf hlen
      cases v with
      | str s =>
        have hs : s.length < 2 ^ 64 := by simpa [wfB] using hwf
        rcases hnd : natDigits s.length with _ | ⟨b, ds⟩
        · exact absurd hnd (natDigits_ne_nil _)
        have hb : 48 ≤ b ∧ b ≤ 57 :=
          natDigits_bounds s.length b (by rw [hnd]; exact List.mem_cons_self _ _)
        have hin : encode (.str s) ++ r = b :: (ds ++ 58 :: (s ++ r)) := by
          rw [encode_str_def]
          simp [encode_string, hnd]
        rw [hin, decode_next.eq_def]
        dsimp only
        rw [if_pos (by simp [isDigitByte]; omega)]
        rw [← hin, encode_str_def, decode_string_encode hs]
        rfl
      | int i =>
        have hr : -(2 ^ 63) ≤ i ∧ i < 2 ^ 63 := by simpa [wfB] using hwf
        have hin : encode (.int i) ++ r = 105 :: (intDigits i ++ [101] ++ r) := by
          rw [encode_int_def]
          simp [encode_integer]
        rw [hin, decode_next.eq_def]
        dsimp only
        rw [if_neg (by decide), if_pos rfl]
        rw [← hin, encode_int_def, decode_integer_encode hr.1 hr.2]
        rfl
      | list l =>
        have hw : wfL l = true := by simpa [wfB] using hwf
        have hin : encode (.list l) ++ r = 108 :: ((l.map encode).flatten ++ 101 :: r) := by
          rw [encode_list_def]
          simp
        have hlen2 : ((l.map encode).flatten).length + 1 ≤ f := by
          have he : (encode (.list l)).length = ((l.map encode).flatten).length + 2 := by
            rw [encode_list_def]
            simp
          omega
        rw [hin, decode_next.eq_def]
        dsimp only
        rw [if_neg (by decide), if_neg (by decide), if_pos rfl]
        rw [ihQ l r hw hlen2]
        dsimp only
        rw [canon_list]
      | dict d =>
        have hwf2 := hwf
        simp only [wfB, Bool.and_eq_true, decide_eq_true_eq, List.all_eq_true] at hwf2
        have hnd : (d.map Prod.fst).Nodup := hwf2.1.1
        have hwP : wfP d = true := hwf2.2
        have hkb : ∀ k ∈ d.map Prod.fst, k.length < 2 ^ 64 := by
          intro k hk
          have := hwf2.1.2 k hk
          simpa using this
        have hwQ : wfP (dictPairs d) = true := by
          refine wfP_of_forall ?_
          intro kv hkv
          exact wfP_mem hwP (lookupA_mem (dictPairs_mem hkv))
        have hkb2 : ∀ kv ∈ dictPairs d, kv.1.length < 2 ^ 64 := by
          intro kv hkv
          refine hkb kv.1 ?_
          have hm : kv.1 ∈ (dictPairs d).map Prod.fst := List.mem_map.mpr ⟨kv, hkv, rfl⟩
          rw [dictPairs_fst] at hm
          exact ((sortKeys_perm (d.map Prod.fst)).mem_iff).mp hm
        have hin : encode (.dict d) ++ r =
            100 :: (((dictPairs d).map (fun kv => encode_string kv.1 ++ encode kv.2)).flatten
              ++ 101 :: r) := by
          rw [encode_dict_pairs_eq]
          simp
        have hlen2 : (((dictPairs d).map (fun kv =>
            encode_string kv.1 ++ encode kv.2)).flatten).length + 1 ≤ f := by
          have he : (encode (.dict d)).length =
              (((dictPairs d).map (fun kv =>
                encode_string kv.1 ++ encode kv.2)).flatten).length + 2 := by
            rw [encode_dict_pairs_eq]
            simp
          omega
        rw [hin, decode_next.eq_def]
        dsimp only
        rw [if_neg (by decide), if_neg (by decide), if_neg (by decide), if_pos rfl]
        rw [ihR (dictPairs d) [] r hwQ hkb2 hlen2]
        dsimp only
        rw [foldl_insertAssoc canon (dictPairs d) []
          (by rw [dictPairs_fst]
              exact ((sortKeys_perm (d.map Prod.fst)).nodup_iff).mpr hnd)
          (by intro k _; simp)]
        rw [canon_dict]
        simp
    · intro vs r hw hlen
      cases vs with
      | nil =>
        simp only [List.map_nil, List.flatten_nil, List.nil_append]
        rw [decode_list_items.eq_def]
        dsimp only
        rw [if_pos rfl]
      | cons v t =>
        simp only [wfL, Bool.and_eq_true] at hw
        simp only [List.map_cons, List.flatten_cons, List.append_assoc] at hlen ⊢
        simp only [List.length_append] at hlen
        have hvp := encode_length_pos v
        rcases encode_head_ne_101 v with ⟨b, tb, hvb, hb101⟩
        have hsplit : encode v ++ ((t.map encode).flatten ++ 101 :: r) =
            b :: (tb ++ ((t.map encode).flatten ++ 101 :: r)) := by
          rw [hvb]
          rfl
        rw [hsplit, decode_list_items.eq_def]
        dsimp only
        rw [if_neg hb101]
        rw [← hsplit]
        rw [ihP v ((t.map encode).flatten ++ 101 :: r) hw.1 (by omega)]
        dsimp only
        rw [ihQ t r hw.2 (by omega)]
    · intro qs acc r hwq hkb hlen
      cases qs with
      | nil =>
        simp only [List.map_nil, List.flatten_nil, List.nil_append, List.foldl_nil]
        rw [decode_dict_pairs.eq_def]
        dsimp only
        rw [if_pos rfl]
      | cons p t =>
        obtain ⟨k, v⟩ := p
        simp only [wfP, Bool.and_eq_true] at hwq
        have hkl : k.length < 2 ^ 64 := hkb (k, v) (List.mem_cons_self _ _)
        simp only [List.map_cons, List.flatten_cons, List.append_assoc] at hlen ⊢
        simp only [List.length_append] at hlen
        have hsl := encode_string_length_ge k
        have hvp := encode_length_pos v
        rcases hnd : natDigits k.length with _ | ⟨b, ds⟩
        · exact absurd hnd (natDigits_ne_nil _)
        have hdb : 48 ≤ b ∧ b ≤ 57 :=
          natDigits_bounds k.length b (by rw [hnd]; exact List.mem_cons_self _ _)
        have hsplit : encode_string k ++ (encode v ++
            ((t.map (fun kv => encode_string kv.1 ++ encode kv.2)).flatten ++ 101 :: r)) =
            b :: (ds ++ 58 :: (k ++ (encode v ++
              ((t.map (fun kv => encode_string kv.1 ++ encode kv.2)).flatten
                ++ 101 :: r)))) := by
          simp [encode_string, hnd]
        rw [hsplit, decode_dict_pairs.eq_def]
        dsimp only
        rw [if_neg (by omega)]
        rw [← hsplit]
        rw [decode_string_encode hkl]
        dsimp only
        rw [ihP v ((t.map (fun kv => encode_string kv.1 ++ encode kv.2)).flatten ++ 101 :: r)
          hwq.1 (by omega)]
        dsimp only
        rw [ihR t (insertAssoc k (canon v) acc) r hwq.2
          (fun kv hkv => hkb kv (List.mem_cons_of_mem _ hkv)) (by omega)]
        rfl

/-- C3: round-trip for decoder-produced values.  If the decoder yielded the
value `v` (from any input, with any fuel), then decoding the encoder's
output for `v` succeeds, consumes the entire buffer, and yields a value
equal to `v` in the sense of Rust's derived `PartialEq` on `BencodeValue`
(`bequiv`: structural equality with `HashMap` equality at dictionaries,
which ignores entry order). -/
theorem C3_decode_encode_roundtrip (f : Nat) (input : List Nat) (v : BencodeValue)
    (rest : List Nat) (h : decode_next f input = some (.ok (v, rest))) :
    ∃ w, decodeBytes (encode v) = some (.ok (w, [])) ∧ bequiv v w = true := by
  have hwf : wfB v = true := (decode_wf_aux f).1 input v rest h
  refine ⟨canon v, ?_, bequiv_canon (bsize v) v le_rfl hwf⟩
  show decode_next ((encode v).length + 1) (encode v) = _
  have hmain := (decode_encode_aux ((encode v).length + 1)).1 v [] hwf (by omega)
  simpa using hmain

/-- Witness for C3: the decoder applied to `d1:bi1e1:ai2ee` produces the
dictionary mapping `b` to 1 and `a` to 2, and the round trip holds for it. -/
theorem C3_decode_encode_roundtrip_witness :
    ∃ w, decodeBytes (encode (.dict [([98], .int 1), ([97], .int 2)])) =
        some (.ok (w, [])) ∧
      bequiv (.dict [([98], .int 1), ([97], .int 2)]) w = true :=
  C3_decode_encode_roundtrip 15
    [100, 49, 58, 98, 105, 49, 101, 49, 58, 97, 105, 50, 101, 101]
    (.dict [([98], .int 1), ([97], .int 2)]) [] (by rfl)
